import Mathlib

/-!
# The xv6 console driver (`console.c`): line editor, input ring, command trie

A shallow embedding of `src/console.c`.

Conventions of the embedding.

* A `char` is its unsigned byte value `0 .. 255` (a `Nat`); a C string is the list of its
  bytes, read up to the first zero byte (the end of the list stands for the terminator).
* The ring indices `input.r`, `input.w`, `input.e` are the unbounded counters of the
  specification (section 3) and never wrap; the buffer is addressed modulo `INPUT_BUF`.
  Where the C code would decrement a counter that is zero, or subtract a larger counter
  from a smaller one (`uint` wrap-around), the model stops with `none`.
* Output is the trace of calls reaching the outside: `uartputc`, `wakeup`, `procdump`.
  The output functions are modelled for `panicked = 0`.
* Code that would touch memory outside an object (the 32-byte `prefix` array, the 128
  child slots of a node, the 16-byte digit buffer, a null node) stops with `none`.
* Locks (`acquire`/`release`, `ilock`/`iunlock`) have no effect on the data and are left out.
-/

namespace Console

/-! ## Constants -/

def MAX_COMMANDS : Nat := 100

def MAX_COMMAND_LENGTH : Nat := 32

def BACKSPACE : Nat := 0x100

def INPUT_BUF : Nat := 512

def TRIE_CHILDREN : Nat := 128

/-- The macro `C(x)  ((x)-'@')`: the control code of a letter. -/
def C (x : Nat) : Nat := x - 64

/-! ## Output -/

/-- What the console code does to the outside world, in order. -/
inductive Event where
  | uartputc (c : Nat)
  | wakeup
  | procdump
  deriving DecidableEq, Repr

/-- The function `consputc` (with `panicked = 0`). -/
def consputc (c : Nat) : List Event :=
  if c = BACKSPACE then
    [Event.uartputc 8, Event.uartputc 32, Event.uartputc 8]
  else
    [Event.uartputc c]

/-! ## C strings (`string.c` is not among the sources) -/

/-- The bytes of a C string: everything before the first zero byte. -/
def cstr (s : List Nat) : List Nat := s.takeWhile (fun b => b != 0)

/-- Modelled from the spec: `strlen` of `string.c`, the number of bytes before the
terminator ("name length bounded"). -/
def strlen (s : List Nat) : Nat := (cstr s).length

/-- Modelled from the spec: `safestrcpy(dst, t, n)` of `string.c`; the result is the string
left in `dst`: at most `n - 1` bytes of `t`, then the terminator ("stores the full name",
"bounded length"). -/
def safestrcpy (t : List Nat) (n : Nat) : List Nat := (cstr t).take (n - 1)

/-- Modelled from the spec: `strncmp(p, q, n)` of `string.c`, comparing at most `n` bytes and
stopping at a terminator ("every entry whose prefix equals the typed prefix"). -/
def strncmp : List Nat → List Nat → Nat → Int
  | _, _, 0 => 0
  | p, q, n + 1 =>
    if p.headD 0 ≠ 0 ∧ p.headD 0 = q.headD 0 then strncmp p.tail q.tail n
    else (p.headD 0 : Int) - (q.headD 0 : Int)

/-! ## Formatted output -/

/-- The table `digits[] = "0123456789abcdef"` of `printint`. -/
def digits : List Nat :=
  [48, 49, 50, 51, 52, 53, 54, 55, 56, 57, 97, 98, 99, 100, 101, 102]

/-- The `do { buf[i++] = digits[x % base]; } while ((x /= base) != 0);` loop of `printint`.
The first argument is the number of free slots left in `buf[16]`; the result is the
contents `buf[0 .. i-1]`, or `none` when a store would fall outside `buf`. -/
def printint_loop (base : Nat) : Nat → Nat → List Nat → Option (List Nat)
  | 0, _, _ => none
  | free + 1, x, buf =>
    if x / base ≠ 0 then printint_loop base free (x / base) (buf ++ [digits.getD (x % base) 0])
    else some (buf ++ [digits.getD (x % base) 0])

/-- The function `printint(xx, base, sign)`; `xx` is the value of the `int` argument. -/
def printint (xx : Int) (base : Nat) (sign : Bool) : Option (List Event) :=
  let neg : Bool := sign && decide (xx < 0)
  let x : Nat := if neg then ((-xx) % 4294967296).toNat else (xx % 4294967296).toNat
  match printint_loop base 16 x [] with
  | none => none
  | some buf =>
    if neg then
      if buf.length < 16 then some (((buf ++ [45]).reverse).flatMap consputc) else none
    else some ((buf.reverse).flatMap consputc)

/-- One word of the variable argument list of `cprintf`: a 32-bit integer, or the address
of a string (given by the bytes found there).  `word 0` is also the null pointer. -/
inductive Arg where
  | word (v : Nat)
  | str (s : List Nat)
  deriving DecidableEq, Repr

/-- The conversion of a 32-bit word to `int`. -/
def toInt32 (v : Nat) : Int :=
  if v % 4294967296 < 2147483648 then ((v % 4294967296 : Nat) : Int)
  else ((v % 4294967296 : Nat) : Int) - 4294967296

/-- The formatting loop of `cprintf` over the rest of the format and the rest of the
arguments; returns the output and the arguments left.  `none`: an out-of-range store of
`printint`, or an argument that is not there or is not of the kind the placeholder reads. -/
def cprintf_loop : List Nat → List Arg → Option (List Event × List Arg)
  | [], args => some ([], args)
  | [c], args =>
    if c % 256 = 0 then some ([], args)
    else if c % 256 ≠ 37 then some (consputc (c % 256), args)
    else some ([], args)
  | c :: d :: fmt, args =>
    if c % 256 = 0 then some ([], args)
    else if c % 256 ≠ 37 then
      match cprintf_loop (d :: fmt) args with
      | none => none
      | some (out, rest) => some (consputc (c % 256) ++ out, rest)
    else if d % 256 = 0 then some ([], args)
    else
      let here : Option (List Event × List Arg) :=
        if d % 256 = 100 then
          match args with
          | Arg.word v :: rest => (printint (toInt32 v) 10 true).map (fun o => (o, rest))
          | _ => none
        else if d % 256 = 120 ∨ d % 256 = 112 then
          match args with
          | Arg.word v :: rest => (printint (toInt32 v) 16 false).map (fun o => (o, rest))
          | _ => none
        else if d % 256 = 115 then
          match args with
          | Arg.word 0 :: rest => some ([40, 110, 117, 108, 108, 41].flatMap consputc, rest)
          | Arg.str s :: rest => some ((cstr s).flatMap consputc, rest)
          | _ => none
        else if d % 256 = 37 then some (consputc 37, args)
        else some (consputc 37 ++ consputc (d % 256), args)
      match here with
      | none => none
      | some (out1, rest1) =>
        match cprintf_loop fmt rest1 with
        | none => none
        | some (out2, rest2) => some (out1 ++ out2, rest2)

/-- The function `cprintf(fmt, ...)` for a non-null `fmt`. -/
def cprintf (fmt : List Nat) (args : List Arg) : Option (List Event × List Arg) :=
  cprintf_loop fmt args

/-! ## The command trie -/

/-- A value of type `TrieNode *`: the null pointer, or a node given by its fields
`children`, `is_end`, `command`. -/
inductive TrieNode where
  | null
  | node (children : Nat → TrieNode) (is_end : Bool) (command : List Nat)

/-- The test `!node`. -/
def TrieNode.isNull : TrieNode → Bool
  | .null => true
  | .node _ _ _ => false

/-- The field `is_end` (false for the null pointer, which has no fields). -/
def TrieNode.isEnd : TrieNode → Bool
  | .null => false
  | .node _ e _ => e

/-- The field `command` (empty for the null pointer). -/
def TrieNode.cmd : TrieNode → List Nat
  | .null => []
  | .node _ _ m => m

/-- The function `trie_init`: `memset(&trie_root, 0, sizeof(trie_root))`. -/
def trie_init : TrieNode := TrieNode.node (fun _ => TrieNode.null) false []

/-- The loop and tail of `trie_insert(cmd)`, from the node reached so far and the bytes
`cmd[i ..]` still to walk.  `alloc_page k` tells whether the `k`-th call of the page
allocator returns a page; the count of calls made is threaded through.  `none`: a child
index outside `children[128]`, or a store through a null node. -/
def trie_insert_from (alloc_page : Nat → Bool) (cmd : List Nat) :
    List Nat → TrieNode → Nat → Option (TrieNode × Nat)
  | _, TrieNode.null, _ => none
  | [], TrieNode.node ch _ _, k =>
    some (TrieNode.node ch true (safestrcpy cmd MAX_COMMAND_LENGTH), k)
  | c :: rest, TrieNode.node ch e m, k =>
    if c = 0 then some (TrieNode.node ch true (safestrcpy cmd MAX_COMMAND_LENGTH), k)
    else if TRIE_CHILDREN ≤ c then none
    else
      let child : TrieNode :=
        if (ch c).isNull then
          (if alloc_page k then TrieNode.node (fun _ => TrieNode.null) false [] else TrieNode.null)
        else ch c
      let k1 : Nat := if (ch c).isNull then k + 1 else k
      match trie_insert_from alloc_page cmd rest child k1 with
      | none => none
      | some (child1, k2) => some (TrieNode.node (fun i => if i = c then child1 else ch i) e m, k2)

/-- The function `trie_insert(cmd)` on the trie rooted at `root`. -/
def trie_insert (alloc_page : Nat → Bool) (root : TrieNode) (k : Nat) (cmd : List Nat) :
    Option (TrieNode × Nat) :=
  trie_insert_from alloc_page cmd cmd root k

/-- The function `trie_collect(node, result, found)`; the pair is `(result, *found)`. -/
def trie_collect : TrieNode → List Nat × Nat → List Nat × Nat
  | TrieNode.null, acc => acc
  | TrieNode.node ch e m, acc =>
    if acc.2 > 1 then acc
    else
      let acc1 : List Nat × Nat :=
        if e then (safestrcpy m MAX_COMMAND_LENGTH, acc.2 + 1) else acc
      (List.range TRIE_CHILDREN).foldl
        (fun a i => if (ch i).isNull then a else trie_collect (ch i) a) acc1

/-- The function `trie_find(prefix)` from the node `node`: `some TrieNode.null` is the
result `0`; `none` is a child index outside `children[128]`. -/
def trie_find : TrieNode → List Nat → Option TrieNode
  | node, [] => some node
  | TrieNode.null, _ :: _ => none
  | TrieNode.node ch e m, c :: rest =>
    if c = 0 then some (TrieNode.node ch e m)
    else if TRIE_CHILDREN ≤ c then none
    else if (ch c).isNull then some TrieNode.null
    else trie_find (ch c) rest

/-! ## The command registry -/

/-- The globals `commands`, `command_count` (the length of the list) and `trie_root`. -/
structure Registry where
  commands : List (List Nat)
  trie_root : TrieNode

/-- A directory record `struct dirent` as `readi` delivers it. -/
structure Dirent where
  inum : Nat
  name : List Nat

/-- The `for` loop of `init_usr_commands` over the records `readi` still delivers. -/
def init_usr_commands_loop (alloc_page : Nat → Bool) :
    List Dirent → Registry → Nat → Option (Registry × Nat)
  | [], reg, k => some (reg, k)
  | de :: rest, reg, k =>
    if ¬ reg.commands.length < MAX_COMMANDS then some (reg, k)
    else if de.inum = 0 then init_usr_commands_loop alloc_page rest reg k
    else if de.name.getD 0 0 ≠ 46 ∧ de.name.getD 1 0 ≠ 0 then
      if strlen de.name < MAX_COMMAND_LENGTH then
        match trie_insert alloc_page reg.trie_root k de.name with
        | none => none
        | some (t, k1) =>
          init_usr_commands_loop alloc_page rest
            { commands := reg.commands ++ [safestrcpy de.name MAX_COMMAND_LENGTH],
              trie_root := t } k1
      else init_usr_commands_loop alloc_page rest reg k
    else init_usr_commands_loop alloc_page rest reg k

/-- The function `init_usr_commands`; `dir` is the content of the root directory, `none`
when `namei` finds no root. -/
def init_usr_commands (alloc_page : Nat → Bool) (dir : Option (List Dirent)) :
    Option Registry :=
  match dir with
  | none => some { commands := [], trie_root := trie_init }
  | some des =>
    (init_usr_commands_loop alloc_page des { commands := [], trie_root := trie_init } 0).map
      (fun p => p.1)

/-! ## The input ring and the line editor -/

/-- The global `input` (without its lock). -/
structure Input where
  buf : Nat → Nat
  r : Nat
  w : Nat
  e : Nat

/-- The assignment `buf[i] = b`. -/
def bufset (buf : Nat → Nat) (i b : Nat) : Nat → Nat :=
  fun j => if j = i then b else buf j

/-- The backward scan of `autocomplete`:
`while (start >= (int)w && buf[start % INPUT_BUF] != ' ' && buf[start % INPUT_BUF] != '\n') start--;`
followed by `start++`.  The argument is `start + 1` (so that `start = -1` is `0`), and so
is the result. -/
def word_start (buf : Nat → Nat) (w : Nat) : Nat → Nat
  | 0 => 0
  | p + 1 =>
    if w ≤ p ∧ buf (p % INPUT_BUF) ≠ 32 ∧ buf (p % INPUT_BUF) ≠ 10 then word_start buf w p
    else p + 1

/-- The completion loop of `autocomplete`, over the bytes `match[len .. matchlen-1]`:
`buf[(*e) % INPUT_BUF] = match[i]; consputc(match[i]); (*e)++;`. -/
def autocomplete_append : List Nat → Nat → (Nat → Nat) → Nat × (Nat → Nat) × List Event
  | [], e, buf => (e, buf, [])
  | b :: rest, e, buf =>
    let r := autocomplete_append rest (e + 1) (bufset buf (e % INPUT_BUF) b)
    (r.1, r.2.1, consputc b ++ r.2.2)

/-- The listing loop of `autocomplete` over the command table:
`if (strncmp(commands[i], prefix, len) == 0) cprintf("%s\n", commands[i]);`. -/
def autocomplete_list (pfx : List Nat) (len : Nat) : List (List Nat) → Option (List Event)
  | [] => some []
  | cmd :: rest =>
    if strncmp cmd pfx len = 0 then
      match cprintf [37, 115, 10] [Arg.str cmd] with
      | none => none
      | some (out, _) => (autocomplete_list pfx len rest).map (fun o => out ++ o)
    else autocomplete_list pfx len rest

/-- The re-echo loop `for (int i = w; i < *e; i++) consputc(buf[i % INPUT_BUF]);`. -/
def autocomplete_echo (buf : Nat → Nat) (w e : Nat) : List Event :=
  (List.range' w (e - w)).flatMap (fun i => consputc (buf (i % INPUT_BUF)))

/-- The function `autocomplete(&input.e, input.buf, input.w)`: the new `e`, the new buffer
and the output.  `none`: `prefix[len]` outside the 32-byte array, or a fault of `trie_find`. -/
def autocomplete (reg : Registry) (e : Nat) (buf : Nat → Nat) (w : Nat) :
    Option (Nat × (Nat → Nat) × List Event) :=
  let start := word_start buf w e
  let len := e - start
  if len = 0 then some (e, buf, [])
  else if MAX_COMMAND_LENGTH ≤ len then none
  else
    let pfx : List Nat :=
      (List.range (min len (MAX_COMMAND_LENGTH - 1))).map (fun i => buf ((start + i) % INPUT_BUF))
    match trie_find reg.trie_root pfx with
    | none => none
    | some node =>
      if node.isNull then some (e, buf, [])
      else
        let col := trie_collect node ([], 0)
        if col.2 = 1 then some (autocomplete_append ((cstr col.1).drop len) e buf)
        else if col.2 > 1 then
          match autocomplete_list pfx len reg.commands, cprintf [62, 32] [] with
          | some listing, some (prompt, _) =>
            some (e, buf, consputc 10 ++ listing ++ prompt ++ autocomplete_echo buf w e)
          | _, _ => none
        else
          match cprintf [36] [] with
          | some (prompt, _) => some (e, buf, consputc 10 ++ prompt ++ autocomplete_echo buf w e)
          | none => none

/-- The kill-line loop of `consoleintr`:
`while ((input.e != input.w) && (input.buf[(input.e - 1) % INPUT_BUF] != '\n')) { input.e--; consputc(BACKSPACE); }`
as a function of `input.e`.  `none`: the counter `e` would go below zero. -/
def kill_line (buf : Nat → Nat) (w : Nat) : Nat → Option (Nat × List Event)
  | 0 => if 0 ≠ w ∧ buf (INPUT_BUF - 1) ≠ 10 then none else some (0, [])
  | e + 1 =>
    if e + 1 ≠ w ∧ buf (e % INPUT_BUF) ≠ 10 then
      (kill_line buf w e).map (fun p => (p.1, consputc BACKSPACE ++ p.2))
    else some (e + 1, [])

/-- The body of the `while ((c = getc()) >= 0)` loop of `consoleintr` for one value `c`. -/
def consoleintr_byte (reg : Registry) (s : Input) (c : Nat) : Option (Input × List Event) :=
  if c = C 80 then some (s, [Event.procdump])
  else if c = C 85 then
    (kill_line s.buf s.w s.e).map (fun p => ({ s with e := p.1 }, p.2))
  else if c = C 72 ∨ c = 127 then
    if s.e ≠ s.w then
      (if s.e = 0 then none else some ({ s with e := s.e - 1 }, consputc BACKSPACE))
    else some (s, [])
  else if c = 9 then
    (autocomplete reg s.e s.buf s.w).map (fun p => ({ s with e := p.1, buf := p.2.1 }, p.2.2))
  else if c ≠ 0 then
    if s.e < s.r then none
    else if s.e - s.r < INPUT_BUF then
      let c1 : Nat := if c = 13 then 10 else c
      let s1 : Input := { s with buf := bufset s.buf (s.e % INPUT_BUF) (c1 % 256), e := s.e + 1 }
      if c1 = 10 ∨ c1 = C 68 ∨ s1.e = s1.r + INPUT_BUF then
        some ({ s1 with w := s1.e }, consputc c1 ++ [Event.wakeup])
      else some (s1, consputc c1)
    else some (s, [])
  else some (s, [])

/-- The function `consoleintr(getc)`; the list holds the values `getc` returns before its
first negative one. -/
def consoleintr (reg : Registry) : Input → List Nat → Option (Input × List Event)
  | s, [] => some (s, [])
  | s, c :: cs =>
    match consoleintr_byte reg s c with
    | none => none
    | some (s1, out1) =>
      match consoleintr reg s1 cs with
      | none => none
      | some (s2, out2) => some (s2, out1 ++ out2)

/-! ## The blocking reader -/

/-- One return of `sleep(&input.r, &input.lock)`: what the rest of the system did to the
ring while the reader slept, and `proc->killed` as the reader finds it when it runs again. -/
structure Wake where
  ring : Input → Input
  killed : Bool

/-- How the wait loop of `consoleread` ends. -/
inductive Waited where
  | ready (s : Input) (killed : Bool) (wakes : List Wake)
  | cancelled (s : Input)
  | asleep

/-- The loop `while (input.r == input.w) { if (proc->killed) return -1; sleep(...); }` of
`consoleread`, against the returns of `sleep` still to come; `asleep`: `sleep` does not
return. -/
def consoleread_wait : Input → Bool → List Wake → Waited
  | s, killed, [] =>
    if s.r = s.w then (if killed then Waited.cancelled s else Waited.asleep)
    else Waited.ready s killed []
  | s, killed, wk :: rest =>
    if s.r = s.w then
      (if killed then Waited.cancelled s else consoleread_wait (wk.ring s) wk.killed rest)
    else Waited.ready s killed (wk :: rest)

/-- The outcome of `consoleread`: the returned value, the ring on return and the bytes
stored through `dst`, in order; or the reader is still asleep. -/
inductive ReadResult where
  | ret (val : Int) (s : Input) (dst : List Nat)
  | asleep

/-- The loop `while (n > 0)` of `consoleread` and the final `return target - n`; the
second argument is `n`. -/
def consoleread_loop (target : Nat) :
    Nat → Input → Bool → List Wake → List Nat → ReadResult
  | 0, s, _, _, dst => ReadResult.ret ((target : Int) - 0) s dst
  | n + 1, s, killed, wakes, dst =>
    match consoleread_wait s killed wakes with
    | Waited.cancelled s1 => ReadResult.ret (-1) s1 dst
    | Waited.asleep => ReadResult.asleep
    | Waited.ready s1 killed1 wakes1 =>
      let c : Nat := s1.buf (s1.r % INPUT_BUF)
      let s2 : Input := { s1 with r := s1.r + 1 }
      if c = C 68 then
        if n + 1 < target then
          ReadResult.ret ((target : Int) - ((n + 1 : Nat) : Int)) { s2 with r := s2.r - 1 } dst
        else ReadResult.ret ((target : Int) - ((n + 1 : Nat) : Int)) s2 dst
      else if c = 10 then ReadResult.ret ((target : Int) - (n : Int)) s2 (dst ++ [c])
      else consoleread_loop target n s2 killed1 wakes1 (dst ++ [c])

/-- The function `consoleread(ip, dst, n)` for `n ≥ 0` (a negative `n` behaves as `0`),
called with the ring `s` and `proc->killed = killed`. -/
def consoleread (s : Input) (killed : Bool) (wakes : List Wake) (n : Nat) : ReadResult :=
  consoleread_loop n n s killed wakes []

/-! ## Notions used to state the properties -/

/-- The bytes at the ring positions `i, i+1, ..., i+len-1` (taken modulo `INPUT_BUF`). -/
def ring_bytes (buf : Nat → Nat) : Nat → Nat → List Nat
  | _, 0 => []
  | i, len + 1 => buf (i % INPUT_BUF) :: ring_bytes buf (i + 1) len

/-- The position, counted from 1, of the first newline in `bytes`, or `n` if there is none. -/
def first_newline (bytes : List Nat) (n : Nat) : Nat :=
  if 10 ∈ bytes then bytes.indexOf 10 + 1 else n

/-- A ring holding the committed bytes `a`, newline, `a`. -/
def ring_a_nl : Input := ⟨fun i => if i = 1 then 10 else 97, 0, 3, 3⟩

/-- A ring holding `ab`, then `^D`, all committed. -/
def ring_ab_eof : Input := ⟨fun i => if i = 2 then 4 else 97 + i, 0, 3, 3⟩

/-- What a caller sees of a `ReadResult`: the returned value, `input.r` on return and the
bytes stored through `dst`. -/
def ReadResult.summary : ReadResult → Option (Int × Nat × List Nat)
  | ReadResult.ret v s dst => some (v, s.r, dst)
  | ReadResult.asleep => none

/-- The reference line editor of the line-editor property: the committed text and the
pending text. -/
structure Editor where
  committed : List Nat
  pending : List Nat

/-- One byte through the reference editor: backspace (`^H`, `0x7f`) removes the last
pending byte when there is one, kill-line (`^U`) clears the pending text, `'\r'` counts as
`'\n'`, `'\n'` and `^D` append the pending text and themselves to the committed text and
empty the pending text, any other byte is appended to the pending text. -/
def Editor.step (ed : Editor) (c : Nat) : Editor :=
  if c = 8 ∨ c = 127 then { ed with pending := ed.pending.dropLast }
  else if c = 21 then { ed with pending := [] }
  else if c = 13 ∨ c = 10 then
    { committed := ed.committed ++ ed.pending ++ [10], pending := [] }
  else if c = 4 then { committed := ed.committed ++ ed.pending ++ [4], pending := [] }
  else { ed with pending := ed.pending ++ [c] }

/-- A sequence of bytes through the reference editor. -/
def Editor.run (ed : Editor) (cs : List Nat) : Editor := cs.foldl Editor.step ed

/-- The number of bytes of a sequence that the editor stores (all but backspace and
kill-line). -/
def stored_count (cs : List Nat) : Nat :=
  (cs.filter (fun c => c != 8 && c != 127 && c != 21)).length

/-- The ring `s` holds the texts of the reference editor `ed`: nothing has been read, the
committed text lies at `[0, w)`, the pending text at `[w, e)`, the pending text holds no
newline and the ring has not wrapped. -/
def Holds (s : Input) (ed : Editor) : Prop :=
  s.r = 0 ∧ s.w = ed.committed.length ∧ s.e = s.w + ed.pending.length ∧ s.e < INPUT_BUF ∧
    ring_bytes s.buf 0 s.e = ed.committed ++ ed.pending ∧ 10 ∉ ed.pending

/-- The node reached from `n` by following the child pointers for the bytes `p`, with no
check on the bytes; the null pointer when a child on the way is missing. -/
def TrieNode.descend : TrieNode → List Nat → TrieNode
  | n, [] => n
  | TrieNode.null, _ :: _ => TrieNode.null
  | TrieNode.node ch _ _, c :: rest => TrieNode.descend (ch c) rest

/-- The trie `t` is the trie `n` with the string `x` added, storing `v` at its end. -/
def Inserted (n t : TrieNode) (x v : List Nat) : Prop :=
  ∀ p : List Nat,
    ((t.descend p).isNull = false ↔ ((n.descend p).isNull = false ∨ p <+: x)) ∧
    ((t.descend p).isEnd = true ↔ ((n.descend p).isEnd = true ∨ p = x)) ∧
    (t.descend p).cmd = if p = x then v else (n.descend p).cmd

/-- The trie rooted at `t` holds exactly the strings of `L`: the paths present are the
prefixes of the strings of `L`, the terminal nodes are at the strings of `L`, and each
stores its own string. -/
def Stores (t : TrieNode) (L : List (List Nat)) : Prop :=
  t.isNull = false ∧
    ∀ p : List Nat,
      ((t.descend p).isNull = false ↔ (p = [] ∨ ∃ x ∈ L, p <+: x)) ∧
      ((t.descend p).isEnd = true ↔ p ∈ L) ∧
      ((t.descend p).isEnd = true → (t.descend p).cmd = p)

/-- Successive calls `trie_insert(x)` for the names of a list, in order. -/
def trie_insert_all (alloc_page : Nat → Bool) :
    List (List Nat) → TrieNode → Nat → Option (TrieNode × Nat)
  | [], t, k => some (t, k)
  | x :: xs, t, k =>
    match trie_insert alloc_page t k x with
    | none => none
    | some (t1, k1) => trie_insert_all alloc_page xs t1 k1

/-- The number of terminal nodes (`is_end` set) among the nodes reachable from `n` through
the 128 child slots. -/
def TrieNode.count : TrieNode → Nat
  | TrieNode.null => 0
  | TrieNode.node ch e _ =>
    (if e then 1 else 0) + ((List.range TRIE_CHILDREN).map (fun i => (ch i).count)).sum

/-- The registry built at boot from a root directory holding `ls` and `list`, in that
order, with every allocation succeeding. -/
def registry_ls_list : Registry :=
  (init_usr_commands (fun _ => true)
    (some [⟨1, [108, 115]⟩, ⟨2, [108, 105, 115, 116]⟩])).getD ⟨[], trie_init⟩

/-- The registry built at boot from a root directory holding `ls` and `cat`, in that order,
with every allocation succeeding. -/
def registry_ls_cat : Registry :=
  (init_usr_commands (fun _ => true)
    (some [⟨1, [108, 115]⟩, ⟨2, [99, 97, 116]⟩])).getD ⟨[], trie_init⟩

/-- The registry built at boot from a root directory holding `ls` only. -/
def registry_ls : Registry :=
  (init_usr_commands (fun _ => true) (some [⟨1, [108, 115]⟩])).getD ⟨[], trie_init⟩

/-- The empty ring: `r = w = e = 0` over a zeroed buffer. -/
def ring_empty : Input := ⟨fun _ => 0, 0, 0, 0⟩

/-- What is compared of a ring in the examples: the list of `r`, `w`, `e` and the first `n`
bytes of the buffer. -/
def Input.view (s : Input) (n : Nat) : List Nat :=
  [s.r, s.w, s.e] ++ (List.range n).map s.buf

/-- The ring states in which `consoleread` executes `c = input.buf[input.r++ % INPUT_BUF]`,
in order: the loop of `consoleread` with `n` bytes still wanted, recording the ring each
time the wait loop has been left. -/
def consoleread_takes : Nat → Input → Bool → List Wake → List Input
  | 0, _, _, _ => []
  | n + 1, s, killed, wakes =>
    match consoleread_wait s killed wakes with
    | Waited.cancelled _ => []
    | Waited.asleep => []
    | Waited.ready s1 killed1 wakes1 =>
      if s1.buf (s1.r % INPUT_BUF) = C 68 ∨ s1.buf (s1.r % INPUT_BUF) = 10 then [s1]
      else s1 :: consoleread_takes n { s1 with r := s1.r + 1 } killed1 wakes1

/-- Two returns of `sleep` for the examples: a spurious one that changes nothing, then one
after the line `h`, newline has been committed at the write index. -/
def wakes_spurious_then_line : List Wake :=
  [⟨id, false⟩,
   ⟨fun t => ⟨bufset (bufset t.buf (t.w % INPUT_BUF) 104) ((t.w + 1) % INPUT_BUF) 10,
      t.r, t.w + 2, t.w + 2⟩, false⟩]

/-! # Properties -/

/-- C10: backspace on an empty in-progress region is a no-op.  In every ring state with
`e = w`, either backspace code (`^H` or `0x7f`) leaves `r`, `w`, `e` and the buffer
unchanged and emits no output. -/
theorem backspace_on_empty_pending (reg : Registry) (s : Input) (c : Nat)
    (hc : c = C 72 ∨ c = 127) (he : s.e = s.w) :
    consoleintr_byte reg s c = some (s, []) := by
  rcases hc with rfl | rfl <;> simp [consoleintr_byte, C, he]

/-- Witness of C10: both codes in a ring holding a committed line and nothing pending. -/
theorem backspace_on_empty_pending_witness :
    consoleintr_byte ⟨[], trie_init⟩ ⟨fun _ => 10, 0, 3, 3⟩ 8
        = some (⟨fun _ => 10, 0, 3, 3⟩, []) ∧
      consoleintr_byte ⟨[], trie_init⟩ ⟨fun _ => 10, 0, 3, 3⟩ 127
        = some (⟨fun _ => 10, 0, 3, 3⟩, []) :=
  ⟨backspace_on_empty_pending _ _ 8 (Or.inl (by decide)) rfl,
   backspace_on_empty_pending _ _ 127 (Or.inr rfl) rfl⟩

theorem consoleread_wait_ready (s : Input) (killed : Bool) (wakes : List Wake)
    (h : s.r ≠ s.w) : consoleread_wait s killed wakes = Waited.ready s killed wakes := by
  cases wakes <;> simp [consoleread_wait, h]

theorem first_newline_nil (n : Nat) : first_newline [] n = n := by
  simp [first_newline]

theorem first_newline_cons_self (l : List Nat) (n : Nat) : first_newline (10 :: l) n = 1 := by
  simp [first_newline]

theorem first_newline_cons_ne (b : Nat) (l : List Nat) (n : Nat) (h : b ≠ 10) :
    first_newline (b :: l) (n + 1) = first_newline l n + 1 := by
  have h' : (10 : Nat) ≠ b := fun e => h e.symm
  by_cases hm : 10 ∈ l
  · simp [first_newline, hm, h', List.indexOf_cons_ne l h]
  · simp [first_newline, hm, h']

theorem consoleread_loop_delivers (target : Nat) (killed : Bool) (wakes : List Wake) :
    ∀ (m : Nat) (s : Input) (dst : List Nat),
      C 68 ∉ ring_bytes s.buf s.r (min m (s.w - s.r)) →
      (m ≤ s.w - s.r ∨ 10 ∈ ring_bytes s.buf s.r (min m (s.w - s.r))) →
      consoleread_loop target m s killed wakes dst =
        ReadResult.ret
          ((target : Int) - (m : Int)
            + (first_newline (ring_bytes s.buf s.r (min m (s.w - s.r))) m : Nat))
          { s with r := s.r + first_newline (ring_bytes s.buf s.r (min m (s.w - s.r))) m }
          (dst ++ ring_bytes s.buf s.r
            (first_newline (ring_bytes s.buf s.r (min m (s.w - s.r))) m)) := by
  intro m
  induction m with
  | zero =>
    intro s dst _ _
    simp [consoleread_loop, ring_bytes, first_newline_nil]
  | succ m ih =>
    intro s dst heof hcase
    have hlt : s.r < s.w := by
      rcases hcase with h | h
      · omega
      · by_contra hge
        have : min (m + 1) (s.w - s.r) = 0 := by omega
        rw [this] at h
        simp [ring_bytes] at h
    have hmin : min (m + 1) (s.w - s.r) = min m (s.w - (s.r + 1)) + 1 := by omega
    rw [hmin] at heof hcase ⊢
    simp only [ring_bytes] at heof hcase ⊢
    rw [consoleread_loop, consoleread_wait_ready s killed wakes (by omega)]
    have hc4 : s.buf (s.r % INPUT_BUF) ≠ C 68 := by
      intro h
      exact heof (by simp [h])
    by_cases hc10 : s.buf (s.r % INPUT_BUF) = 10
    · have h104 : ¬ ((10 : Nat) = C 68) := by decide
      simp only [hc10, h104, if_false, if_true, first_newline_cons_self, ring_bytes]
      congr 1
      push_cast
      ring
    · have heof' : C 68 ∉ ring_bytes s.buf (s.r + 1) (min m (s.w - (s.r + 1))) := by
        intro h
        exact heof (List.mem_cons_of_mem _ h)
      have hcase' : m ≤ s.w - (s.r + 1) ∨
          10 ∈ ring_bytes s.buf (s.r + 1) (min m (s.w - (s.r + 1))) := by
        rcases hcase with h | h
        · left; omega
        · right
          rcases List.mem_cons.mp h with h | h
          · exact absurd h.symm hc10
          · exact h
      have := ih { s with r := s.r + 1 } (dst ++ [s.buf (s.r % INPUT_BUF)]) heof' hcase'
      simp only [hc4, hc10, if_false, first_newline_cons_ne _ _ _ hc10, ring_bytes]
      rw [this]
      congr 1
      · push_cast
        ring
      · simp only [Nat.add_assoc, Nat.add_comm 1]
      · simp

/-- C3: read delivery.  When the first `min n (w - r)` committed bytes hold no `^D` and
either `n ≤ w - r` or one of them is a newline, `consoleread(dst, n)` returns `k`, the
position (from 1) of the first newline among them, or `n` if there is none; it stores
exactly the `k` bytes at the ring positions `r, ..., r+k-1` through `dst`, in order,
advances `r` by `k`, and leaves `w`, `e` and the buffer as they were.  It never sleeps, so
this holds for every behaviour of `sleep` and every value of `proc->killed`. -/
theorem consoleread_delivery (s : Input) (killed : Bool) (wakes : List Wake) (n : Nat)
    (heof : C 68 ∉ ring_bytes s.buf s.r (min n (s.w - s.r)))
    (hcase : n ≤ s.w - s.r ∨ 10 ∈ ring_bytes s.buf s.r (min n (s.w - s.r))) :
    consoleread s killed wakes n =
      ReadResult.ret
        (first_newline (ring_bytes s.buf s.r (min n (s.w - s.r))) n : Nat)
        { s with r := s.r + first_newline (ring_bytes s.buf s.r (min n (s.w - s.r))) n }
        (ring_bytes s.buf s.r (first_newline (ring_bytes s.buf s.r (min n (s.w - s.r))) n)) := by
  have h := consoleread_loop_delivers n killed wakes n s [] heof hcase
  rw [consoleread, h]
  congr 1
  omega

/-- Witness of C3: a read of 5 stops after the newline; a read of 1 delivers one byte. -/
theorem consoleread_delivery_witness :
    consoleread ring_a_nl false [] 5 = ReadResult.ret 2 { ring_a_nl with r := 2 } [97, 10] ∧
    consoleread ring_a_nl true [] 1 = ReadResult.ret 1 { ring_a_nl with r := 1 } [97] :=
  ⟨consoleread_delivery ring_a_nl false [] 5 (by decide) (by decide),
   consoleread_delivery ring_a_nl true [] 1 (by decide) (by decide)⟩

theorem consoleread_loop_eof (target : Nat) (killed : Bool) (wakes : List Wake) :
    ∀ (m k : Nat) (s : Input) (dst : List Nat),
      (∀ b ∈ ring_bytes s.buf s.r k, b ≠ 10 ∧ b ≠ C 68) →
      s.buf ((s.r + k) % INPUT_BUF) = C 68 → s.r + k < s.w →
      (m - k < target ∨ m ≤ k) →
      consoleread_loop target m s killed wakes dst =
        ReadResult.ret ((target : Int) - ((m - min m k : Nat) : Int))
          { s with r := s.r + min m k } (dst ++ ring_bytes s.buf s.r (min m k)) := by
  intro m
  induction m with
  | zero =>
    intro k s dst _ _ _ _
    simp [consoleread_loop, ring_bytes]
  | succ m ih =>
    intro k s dst hplain heof hw hlt
    rw [consoleread_loop, consoleread_wait_ready s killed wakes (by omega)]
    cases k with
    | zero =>
      have hc : s.buf (s.r % INPUT_BUF) = C 68 := by simpa using heof
      have hm : m + 1 < target := by omega
      simp [hc, hm, ring_bytes]
    | succ k =>
      have hhead := hplain (s.buf (s.r % INPUT_BUF)) (by simp [ring_bytes])
      have hplain' : ∀ b ∈ ring_bytes s.buf (s.r + 1) k, b ≠ 10 ∧ b ≠ C 68 := by
        intro b hb
        exact hplain b (by simp [ring_bytes, hb])
      have heof' : s.buf ((s.r + 1 + k) % INPUT_BUF) = C 68 := by
        rw [← heof]; congr 2; omega
      have := ih k { s with r := s.r + 1 } (dst ++ [s.buf (s.r % INPUT_BUF)]) hplain' heof'
        (by simp only; omega) (by omega)
      simp only [hhead.1, hhead.2, if_false]
      rw [this]
      have hmin : min (m + 1) (k + 1) = min m k + 1 := by omega
      rw [hmin]
      simp only [ring_bytes]
      congr 1
      · congr 2; omega
      · simp only [Nat.add_assoc, Nat.add_comm 1]
      · simp

/-- C4: the EOF boundary.  If the committed region starts with `k ≥ 1` bytes that are
neither newline nor `^D`, followed by a `^D`, then `consoleread(dst, n)` returns
`min n k`, having delivered those bytes and advanced `r` by as many, so the `^D` is left in
the ring; and every later call with `n2 ≥ 1` that finds that `^D` at position `r = r0 + k`
returns `0` with nothing delivered and `r` one past the `^D`, so it is found only once. -/
theorem consoleread_eof_boundary (s : Input) (k n : Nat) (killed : Bool) (wakes : List Wake)
    (hk : 1 ≤ k) (hw : s.r + k < s.w)
    (hline : ∀ b ∈ ring_bytes s.buf s.r k, b ≠ 10 ∧ b ≠ C 68)
    (heof : s.buf ((s.r + k) % INPUT_BUF) = C 68) :
    consoleread s killed wakes n =
        ReadResult.ret (min n k : Nat) { s with r := s.r + min n k }
          (ring_bytes s.buf s.r (min n k)) ∧
    ∀ (t : Input) (n2 : Nat) (killed2 : Bool) (wakes2 : List Wake),
      t.r = s.r + k → t.r < t.w → t.buf (t.r % INPUT_BUF) = C 68 → 1 ≤ n2 →
      consoleread t killed2 wakes2 n2 = ReadResult.ret 0 { t with r := t.r + 1 } [] := by
  constructor
  · have h := consoleread_loop_eof n killed wakes n k s [] hline heof hw (by omega)
    rw [consoleread, h]
    congr 1
    omega
  · intro t n2 killed2 wakes2 _ htw hc hn2
    obtain ⟨m, rfl⟩ : ∃ m, n2 = m + 1 := ⟨n2 - 1, by omega⟩
    rw [consoleread, consoleread_loop, consoleread_wait_ready t killed2 wakes2 (by omega)]
    simp [hc]



/-- Witness of C4: a read of 5 from `ab^D` returns 2 and keeps the `^D`; the next read
returns 0 and steps over it. -/
theorem consoleread_eof_boundary_witness :
    consoleread ring_ab_eof false [] 5
        = ReadResult.ret 2 { ring_ab_eof with r := 2 } [97, 98] ∧
      consoleread { ring_ab_eof with r := 2 } false [] 5
        = ReadResult.ret 0 { ring_ab_eof with r := 3 } [] :=
  ⟨(consoleread_eof_boundary ring_ab_eof 2 5 false [] (by decide) (by decide) (by decide)
      (by decide)).1,
   (consoleread_eof_boundary ring_ab_eof 2 5 false [] (by decide) (by decide) (by decide)
      (by decide)).2 { ring_ab_eof with r := 2 } 5 false [] rfl (by decide) (by decide)
      (by decide)⟩

theorem consoleread_wait_keeps_r :
    ∀ (wakes : List Wake) (s : Input) (killed : Bool),
      (∀ wk ∈ wakes, ∀ t : Input, (wk.ring t).r = t.r) →
      (∀ s1, consoleread_wait s killed wakes = Waited.cancelled s1 → s1.r = s.r) ∧
      (∀ s1 killed1 wakes1, consoleread_wait s killed wakes = Waited.ready s1 killed1 wakes1 →
        s1.r = s.r ∧ ∀ wk ∈ wakes1, ∀ t : Input, (wk.ring t).r = t.r) := by
  intro wakes
  induction wakes with
  | nil =>
    intro s killed _
    constructor
    · intro s1 h
      simp only [consoleread_wait] at h
      split_ifs at h
      · cases h; rfl
    · intro s1 killed1 wakes1 h
      simp only [consoleread_wait] at h
      split_ifs at h
      · cases h; simp
  | cons wk rest ih =>
    intro s killed hw
    have hrest : ∀ wk ∈ rest, ∀ t : Input, (wk.ring t).r = t.r :=
      fun x hx => hw x (List.mem_cons_of_mem _ hx)
    have hwk := hw wk (List.mem_cons_self _ _) s
    constructor
    · intro s1 h
      simp only [consoleread_wait] at h
      split_ifs at h
      · cases h; rfl
      · rw [(ih (wk.ring s) wk.killed hrest).1 s1 h, hwk]
    · intro s1 killed1 wakes1 h
      simp only [consoleread_wait] at h
      split_ifs at h
      · obtain ⟨h1, h2⟩ := (ih (wk.ring s) wk.killed hrest).2 s1 killed1 wakes1 h
        exact ⟨by rw [h1, hwk], h2⟩
      · cases h
        exact ⟨rfl, hw⟩

theorem consoleread_loop_cancelled (target : Nat) :
    ∀ (m : Nat) (s : Input) (killed : Bool) (wakes : List Wake) (dst : List Nat)
      (s1 : Input) (dst1 : List Nat),
      m ≤ target →
      (∀ wk ∈ wakes, ∀ t : Input, (wk.ring t).r = t.r) →
      consoleread_loop target m s killed wakes dst = ReadResult.ret (-1) s1 dst1 →
      s1.r + dst.length = s.r + dst1.length := by
  intro m
  induction m with
  | zero =>
    intro s killed wakes dst s1 dst1 _ _ h
    simp only [consoleread_loop] at h
    injection h with h1 _ _
    omega
  | succ m ih =>
    intro s killed wakes dst s1 dst1 hm hw h
    rw [consoleread_loop] at h
    have hkeep := consoleread_wait_keeps_r wakes s killed hw
    split at h
    · rename_i s2 heq
      injection h with _ h2 h3
      subst h2 h3
      rw [hkeep.1 _ heq]
    · cases h
    · rename_i s2 killed2 wakes2 heq
      obtain ⟨hr, hw2⟩ := hkeep.2 _ _ _ heq
      simp only at h
      split_ifs at h
      · injection h with h1 _ _
        omega
      · injection h with h1 _ _
        omega
      · injection h with h1 _ _
        omega
      · have := ih _ _ _ _ _ _ (by omega) hw2 h
        simp only [List.length_append, List.length_singleton] at this
        omega

/-- C5 as amended: cancellation does not roll back.  Whatever `sleep` does to the rest of
the ring (it leaves `r` alone: only readers write `r`), when `consoleread` returns `-1`
the read index has advanced by exactly the number of bytes the call had already stored
through `dst`; so `r` is unchanged exactly when nothing had been delivered. -/
theorem consoleread_cancelled_r (s s1 : Input) (killed : Bool) (wakes : List Wake) (n : Nat)
    (dst : List Nat)
    (hsleep : ∀ wk ∈ wakes, ∀ t : Input, (wk.ring t).r = t.r)
    (hret : consoleread s killed wakes n = ReadResult.ret (-1) s1 dst) :
    s1.r = s.r + dst.length := by
  have := consoleread_loop_cancelled n n s killed wakes [] s1 dst (Nat.le_refl _) hsleep hret
  simpa using this

/-- Witness of C5 as amended: a reader that finds the ring empty, wakes once for nothing
and is then woken killed returns `-1` with `r` where it was. -/
theorem consoleread_cancelled_r_witness :
    consoleread ⟨fun _ => 0, 7, 7, 7⟩ false [⟨id, false⟩, ⟨id, true⟩] 5
        = ReadResult.ret (-1) ⟨fun _ => 0, 7, 7, 7⟩ [] ∧
      (7 : Nat) = 7 + ([] : List Nat).length :=
  ⟨rfl, consoleread_cancelled_r ⟨fun _ => 0, 7, 7, 7⟩ ⟨fun _ => 0, 7, 7, 7⟩ false
      [⟨id, false⟩, ⟨id, true⟩] 5 [] (by simp) rfl⟩

/-- Counterexample to C5: 512 bytes `a` typed into the empty ring fill it, which commits
them; a read of 513 bytes, called with `r = 0`, delivers all 512, waits for more, and when
the process is killed returns `-1` with `r = 512` and the 512 bytes stored through `dst`. -/
theorem consoleread_cancel_after_delivery :
    (consoleintr ⟨[], trie_init⟩ ⟨fun _ => 0, 0, 0, 0⟩ (List.replicate 512 97)).bind
        (fun p => ((consoleread p.1 true [] 513).summary).map (fun q => (p.1.r, q)))
      = some (0, -1, 512, List.replicate 512 97) := by
  decide!

theorem ring_bytes_length (buf : Nat → Nat) :
    ∀ (n i : Nat), (ring_bytes buf i n).length = n := by
  intro n
  induction n with
  | zero => intro i; rfl
  | succ n ih => intro i; simp [ring_bytes, ih]

theorem ring_bytes_append (buf : Nat → Nat) :
    ∀ (a i b : Nat), ring_bytes buf i (a + b) = ring_bytes buf i a ++ ring_bytes buf (i + a) b := by
  intro a
  induction a with
  | zero => intro i b; simp [ring_bytes]
  | succ a ih =>
    intro i b
    have h : a + 1 + b = (a + b) + 1 := by omega
    rw [h]
    simp only [ring_bytes, List.cons_append, ih]
    congr 3
    omega

theorem ring_bytes_snoc (buf : Nat → Nat) (i n : Nat) :
    ring_bytes buf i (n + 1) = ring_bytes buf i n ++ [buf ((i + n) % INPUT_BUF)] := by
  rw [ring_bytes_append]
  simp [ring_bytes]

theorem ring_bytes_take (buf : Nat → Nat) (i n m : Nat) (h : m ≤ n) :
    (ring_bytes buf i n).take m = ring_bytes buf i m := by
  obtain ⟨d, rfl⟩ : ∃ d, n = m + d := ⟨n - m, by omega⟩
  rw [ring_bytes_append]
  exact List.take_left' (ring_bytes_length buf m i)

theorem ring_bytes_congr (buf1 buf2 : Nat → Nat) :
    ∀ (n i : Nat), (∀ j, j < n → buf1 ((i + j) % INPUT_BUF) = buf2 ((i + j) % INPUT_BUF)) →
      ring_bytes buf1 i n = ring_bytes buf2 i n := by
  intro n
  induction n with
  | zero => intro i _; rfl
  | succ n ih =>
    intro i h
    simp only [ring_bytes]
    have h0 := h 0 (by omega)
    simp only [Nat.add_zero] at h0
    rw [h0, ih (i + 1)]
    intro j hj
    have := h (j + 1) (by omega)
    rw [show i + (j + 1) = i + 1 + j by omega] at this
    exact this

theorem mem_ring_bytes (buf : Nat → Nat) :
    ∀ (n i j : Nat), j < n → buf ((i + j) % INPUT_BUF) ∈ ring_bytes buf i n := by
  intro n
  induction n with
  | zero => intro i j h; omega
  | succ n ih =>
    intro i j h
    simp only [ring_bytes]
    cases j with
    | zero => simp
    | succ j =>
      have := ih (i + 1) j (by omega)
      rw [show i + 1 + j = i + (j + 1) by omega] at this
      exact List.mem_cons_of_mem _ this

theorem kill_line_clears (buf : Nat → Nat) (w : Nat) :
    ∀ e, w ≤ e → (∀ i, w ≤ i → i < e → buf (i % INPUT_BUF) ≠ 10) →
      ∃ out, kill_line buf w e = some (w, out) := by
  intro e
  induction e with
  | zero =>
    intro hw _
    have : w = 0 := by omega
    subst this
    exact ⟨[], by simp [kill_line]⟩
  | succ e ih =>
    intro hw hno
    by_cases h : w = e + 1
    · subst h
      exact ⟨[], by simp [kill_line]⟩
    · have hne : e + 1 ≠ w := fun x => h x.symm
      obtain ⟨out, hout⟩ := ih (by omega) (fun i h1 h2 => hno i h1 (by omega))
      have hb := hno e (by omega) (by omega)
      exact ⟨consputc BACKSPACE ++ out, by simp [kill_line, hne, hb, hout]⟩

theorem Holds.split {s : Input} {ed : Editor} (h : Holds s ed) :
    ring_bytes s.buf 0 s.w = ed.committed ∧
      ring_bytes s.buf s.w (s.e - s.w) = ed.pending := by
  obtain ⟨_, hw, he, _, hb, _⟩ := h
  have h1 : s.e = s.w + (s.e - s.w) := by omega
  rw [h1, ring_bytes_append] at hb
  have := List.append_inj hb (by rw [ring_bytes_length, hw])
  simpa using this

theorem consoleintr_byte_holds (reg : Registry) (s : Input) (ed : Editor) (c : Nat)
    (h : Holds s ed) (hpos : 0 < c) (hlt : c < 256) (htab : c ≠ 9) (hp : c ≠ 16)
    (hcap : s.e + stored_count [c] < INPUT_BUF) :
    ∃ s1 out, consoleintr_byte reg s c = some (s1, out) ∧ Holds s1 (ed.step c) ∧
      s1.e ≤ s.e + stored_count [c] := by
  have hsplit := h.split
  obtain ⟨hr, hw, he, hlt512, hb, hnl⟩ := h
  by_cases hbs : c = 8 ∨ c = 127
  · -- backspace
    have hstep : ed.step c = { ed with pending := ed.pending.dropLast } := by
      simp [Editor.step, hbs]
    have hci : consoleintr_byte reg s c =
        if s.e ≠ s.w then
          (if s.e = 0 then none else some ({ s with e := s.e - 1 }, consputc BACKSPACE))
        else some (s, []) := by
      rcases hbs with rfl | rfl <;> simp [consoleintr_byte, C]
    rw [hci, hstep]
    by_cases hpe : ed.pending = []
    · have hew : s.e = s.w := by simp [he, hpe]
      refine ⟨s, [], by simp [hew], ?_, by omega⟩
      exact ⟨hr, hw, by simp [hew, hpe], hlt512, by simpa [hpe] using hb, by simp [hpe]⟩
    · have hlen : 0 < ed.pending.length := List.length_pos.mpr hpe
      have hew : s.e ≠ s.w := by omega
      have he0 : s.e ≠ 0 := by omega
      refine ⟨{ s with e := s.e - 1 }, consputc BACKSPACE, by simp [hew, he0], ?_, by
        simp only; omega⟩
      refine ⟨hr, hw, ?_, ?_, ?_, ?_⟩
      · simp only [List.length_dropLast]; omega
      · simp only; omega
      · simp only
        rw [← ring_bytes_take s.buf 0 s.e (s.e - 1) (by omega), hb,
          ← List.dropLast_append_of_ne_nil _ hpe, List.dropLast_eq_take]
        congr 1
        simp only [List.length_append]
        omega
      · intro hmem
        exact hnl (List.dropLast_subset _ hmem)
  by_cases hk : c = 21
  · -- kill line
    subst hk
    have hstep : ed.step 21 = { ed with pending := [] } := by
      simp [Editor.step]
    obtain ⟨out, hout⟩ := kill_line_clears s.buf s.w s.e (by omega) (by
      intro i h1 h2 h10
      have hm := mem_ring_bytes s.buf (s.e - s.w) s.w (i - s.w) (by omega)
      rw [show s.w + (i - s.w) = i by omega, hsplit.2, h10] at hm
      exact hnl hm)
    refine ⟨{ s with e := s.w }, out, by simp [consoleintr_byte, C, hout], ?_, by
      simp only; omega⟩
    rw [hstep]
    exact ⟨hr, hw, by simp, by simp only; omega, by simpa using hsplit.1, by simp⟩
  · -- a stored byte
    have hsc : stored_count [c] = 1 := by
      have h8 : c ≠ 8 := fun x => hbs (Or.inl x)
      have h127 : c ≠ 127 := fun x => hbs (Or.inr x)
      simp [stored_count, h8, h127, hk]
    rw [hsc] at hcap ⊢
    have h8 : c ≠ 8 := fun x => hbs (Or.inl x)
    have h127 : c ≠ 127 := fun x => hbs (Or.inr x)
    have hc0 : c ≠ 0 := by omega
    have hemod : s.e % INPUT_BUF = s.e := Nat.mod_eq_of_lt hlt512
    have hstore : ∀ b : Nat,
        ring_bytes (bufset s.buf (s.e % INPUT_BUF) b) 0 (s.e + 1)
          = ed.committed ++ ed.pending ++ [b] := by
      intro b
      rw [ring_bytes_snoc, ← hb]
      congr 1
      · apply ring_bytes_congr
        intro j hj
        have : j % INPUT_BUF ≠ s.e % INPUT_BUF := by
          rw [hemod, Nat.mod_eq_of_lt (by omega)]
          omega
        simp [bufset, this]
      · simp [bufset]
    have hfull : ¬ (s.e + 1 = s.r + INPUT_BUF) := by omega
    have hlt2 : s.e - s.r < INPUT_BUF := by omega
    have hnr : ¬ s.e < s.r := by omega
    by_cases hcr : c = 13 ∨ c = 10
    · have hstep : ed.step c =
          { committed := ed.committed ++ ed.pending ++ [10], pending := [] } := by
        simp [Editor.step, hbs, hk, hcr]
      have hc1 : (if c = 13 then 10 else c) = 10 := by
        rcases hcr with rfl | rfl <;> simp
      refine ⟨{ s with buf := bufset s.buf (s.e % INPUT_BUF) 10, e := s.e + 1, w := s.e + 1 },
        consputc 10 ++ [Event.wakeup], ?_, ?_, by simp only; omega⟩
      · simp [consoleintr_byte, C, hp, hk, h8, h127, htab, hc0, hnr, hlt2, hc1]
      · rw [hstep]
        refine ⟨hr, ?_, by simp, by simp only; omega, ?_, by simp⟩
        · simp only [List.length_append, List.length_singleton]; omega
        · simpa using hstore 10
    by_cases hcd : c = 4
    · subst hcd
      have hstep : ed.step 4 =
          { committed := ed.committed ++ ed.pending ++ [4], pending := [] } := by
        simp [Editor.step]
      refine ⟨{ s with buf := bufset s.buf (s.e % INPUT_BUF) 4, e := s.e + 1, w := s.e + 1 },
        consputc 4 ++ [Event.wakeup], ?_, ?_, by simp only; omega⟩
      · simp [consoleintr_byte, C, hnr, hlt2]
      · rw [hstep]
        refine ⟨hr, ?_, by simp, by simp only; omega, ?_, by simp⟩
        · simp only [List.length_append, List.length_singleton]; omega
        · simpa using hstore 4
    · have h13 : c ≠ 13 := fun x => hcr (Or.inl x)
      have h10 : c ≠ 10 := fun x => hcr (Or.inr x)
      have hstep : ed.step c = { ed with pending := ed.pending ++ [c] } := by
        simp [Editor.step, hbs, hk, hcr, hcd]
      refine ⟨{ s with buf := bufset s.buf (s.e % INPUT_BUF) c, e := s.e + 1 },
        consputc c, ?_, ?_, by simp only; omega⟩
      · have hcm : c % 256 = c := Nat.mod_eq_of_lt hlt
        simp [consoleintr_byte, C, hp, hk, h8, h127, htab, hc0, hnr, hlt2, h13, h10, hcd,
          hfull, hcm]
      · rw [hstep]
        refine ⟨hr, hw, ?_, by simp only; omega, ?_, ?_⟩
        · simp only [List.length_append, List.length_singleton]; omega
        · simpa [List.append_assoc] using hstore c
        · simp only [List.mem_append, List.mem_singleton, not_or]
          exact ⟨hnl, fun x => h10 x.symm⟩

theorem stored_count_cons (c : Nat) (cs : List Nat) :
    stored_count (c :: cs) = stored_count [c] + stored_count cs := by
  simp only [stored_count, List.filter_cons, List.filter_nil]
  split <;> simp only [List.length_cons, List.length_nil] <;> omega

theorem consoleintr_holds (reg : Registry) :
    ∀ (cs : List Nat) (s : Input) (ed : Editor), Holds s ed →
      (∀ c ∈ cs, 0 < c ∧ c < 256 ∧ c ≠ 9 ∧ c ≠ 16) →
      s.e + stored_count cs < INPUT_BUF →
      ∃ s1 out, consoleintr reg s cs = some (s1, out) ∧ Holds s1 (ed.run cs) := by
  intro cs
  induction cs with
  | nil =>
    intro s ed h _ _
    exact ⟨s, [], rfl, h⟩
  | cons c cs ih =>
    intro s ed h hcs hcap
    rw [stored_count_cons] at hcap
    obtain ⟨hpos, hlt, htab, hp⟩ := hcs c (List.mem_cons_self _ _)
    obtain ⟨s1, out1, hstep, hholds, hle⟩ :=
      consoleintr_byte_holds reg s ed c h hpos hlt htab hp (by omega)
    obtain ⟨s2, out2, hrest, hholds2⟩ :=
      ih s1 (ed.step c) hholds (fun x hx => hcs x (List.mem_cons_of_mem _ hx)) (by omega)
    exact ⟨s2, out1 ++ out2, by simp [consoleintr, hstep, hrest], by
      simpa [Editor.run] using hholds2⟩

/-- C1: line-editor correctness.  From the empty ring (`r = w = e = 0`, any buffer
content), for every sequence of non-zero input bytes without tab and without the
process-listing code that stores fewer than 512 bytes, `consoleintr` ends with the bytes at
`[r, w)` equal to the committed text of the reference editor and the bytes at `[w, e)`
equal to its pending text. -/
theorem consoleintr_line_editor (reg : Registry) (buf : Nat → Nat) (cs : List Nat)
    (hbytes : ∀ c ∈ cs, 0 < c ∧ c < 256) (htab : 9 ∉ cs) (hp : C 80 ∉ cs)
    (hcap : stored_count cs < INPUT_BUF) :
    ∃ s out, consoleintr reg ⟨buf, 0, 0, 0⟩ cs = some (s, out) ∧
      s.r ≤ s.w ∧ s.w ≤ s.e ∧
      ring_bytes s.buf s.r (s.w - s.r) = (Editor.run ⟨[], []⟩ cs).committed ∧
      ring_bytes s.buf s.w (s.e - s.w) = (Editor.run ⟨[], []⟩ cs).pending := by
  have h0 : Holds ⟨buf, 0, 0, 0⟩ ⟨[], []⟩ := by
    simp [Holds, ring_bytes, INPUT_BUF]
  obtain ⟨s, out, hrun, hholds⟩ := consoleintr_holds reg cs ⟨buf, 0, 0, 0⟩ ⟨[], []⟩ h0
    (fun c hc => ⟨(hbytes c hc).1, (hbytes c hc).2, fun x => htab (x ▸ hc),
      fun x => hp (by rw [show C 80 = 16 from rfl, ← x]; exact hc)⟩)
    (by simpa using hcap)
  have hsplit := hholds.split
  obtain ⟨hr, hw, he, _, _, _⟩ := hholds
  refine ⟨s, out, hrun, by omega, by omega, ?_, hsplit.2⟩
  rw [hr]
  simpa using hsplit.1

/-- Witness of C1: `a b ^H c \r d ^U e ^D f` from the empty ring commits `ac\n` and `e^D`
and leaves `f` pending. -/
theorem consoleintr_line_editor_witness :
    ∃ s out, consoleintr ⟨[], trie_init⟩ ⟨fun _ => 0, 0, 0, 0⟩
        [97, 98, 8, 99, 13, 100, 21, 101, 4, 102] = some (s, out) ∧
      s.r ≤ s.w ∧ s.w ≤ s.e ∧
      ring_bytes s.buf s.r (s.w - s.r) = [97, 99, 10, 101, 4] ∧
      ring_bytes s.buf s.w (s.e - s.w) = [102] :=
  consoleintr_line_editor ⟨[], trie_init⟩ (fun _ => 0) [97, 98, 8, 99, 13, 100, 21, 101, 4, 102]
    (by decide) (by decide) (by decide) (by decide)

theorem descend_null (p : List Nat) : TrieNode.null.descend p = TrieNode.null := by
  cases p <;> rfl

theorem descend_fresh (p : List Nat) :
    ((TrieNode.node (fun _ => TrieNode.null) false []).descend p).isEnd = false ∧
    ((TrieNode.node (fun _ => TrieNode.null) false []).descend p).cmd = [] ∧
    (((TrieNode.node (fun _ => TrieNode.null) false []).descend p).isNull = false ↔ p = []) := by
  cases p with
  | nil => simp [TrieNode.descend, TrieNode.isEnd, TrieNode.cmd, TrieNode.isNull]
  | cons c rest =>
    simp [TrieNode.descend, descend_null, TrieNode.isEnd, TrieNode.cmd, TrieNode.isNull]

theorem cstr_nil : cstr [] = [] := rfl

theorem cstr_cons_zero (rest : List Nat) : cstr (0 :: rest) = [] := by
  simp [cstr]

theorem cstr_cons_ne (c : Nat) (rest : List Nat) (h : c ≠ 0) :
    cstr (c :: rest) = c :: cstr rest := by
  simp [cstr, h]

theorem cstr_eq_self (x : List Nat) (h : ∀ b ∈ x, b ≠ 0) : cstr x = x := by
  simp only [cstr]
  rw [List.takeWhile_eq_self_iff]
  intro b hb
  simpa using h b hb

theorem inserted_end (ch : Nat → TrieNode) (e : Bool) (m v : List Nat) :
    Inserted (TrieNode.node ch e m) (TrieNode.node ch true v) [] v := by
  intro p
  cases p with
  | nil => simp [TrieNode.descend, TrieNode.isEnd, TrieNode.cmd, TrieNode.isNull]
  | cons c rest => simp [TrieNode.descend]

theorem inserted_child (ch : Nat → TrieNode) (e : Bool) (m : List Nat) (c : Nat)
    (child child1 : TrieNode) (x v : List Nat)
    (hchild : child = ch c ∨
      ((ch c).isNull = true ∧ child = TrieNode.node (fun _ => TrieNode.null) false []))
    (h : Inserted child child1 x v) :
    Inserted (TrieNode.node ch e m)
      (TrieNode.node (fun i => if i = c then child1 else ch i) e m) (c :: x) v := by
  intro p
  cases p with
  | nil => simp [TrieNode.descend, TrieNode.isEnd, TrieNode.cmd, TrieNode.isNull]
  | cons d rest =>
    simp only [TrieNode.descend]
    by_cases hd : d = c
    · subst hd
      simp only [if_true, List.cons.injEq, true_and, List.cons_prefix_cons]
      obtain ⟨h1, h2, h3⟩ := h rest
      rcases hchild with hc | ⟨hnull, hc⟩
      · subst hc
        exact ⟨h1, h2, h3⟩
      · subst hc
        have hcn : ch d = TrieNode.null := by
          cases hch : ch d with
          | null => rfl
          | node _ _ _ => rw [hch] at hnull; simp [TrieNode.isNull] at hnull
        obtain ⟨f1, f2, f3⟩ := descend_fresh rest
        rw [hcn, descend_null]
        simp only [TrieNode.isNull, TrieNode.isEnd, TrieNode.cmd] at *
        refine ⟨?_, ?_, ?_⟩
        · rw [h1, f3]
          constructor
          · rintro (rfl | h)
            · exact Or.inr (List.nil_prefix)
            · exact Or.inr h
          · rintro (h | h)
            · cases h
            · exact Or.inr h
        · rw [h2, f1]
        · rw [h3, f2]
    · have hne : ¬ (d :: rest <+: c :: x) := by
        rw [List.cons_prefix_cons]
        exact fun h => hd h.1
      have hne2 : ¬ (d :: rest = c :: x) := by
        intro h
        injection h with h _
        exact hd h
      simp [hd, hne, hne2]

theorem trie_insert_from_spec (alloc_page : Nat → Bool) (cmd : List Nat) :
    ∀ (rest : List Nat) (n : TrieNode) (k : Nat) (t : TrieNode) (k1 : Nat),
      trie_insert_from alloc_page cmd rest n k = some (t, k1) →
      n.isNull = false ∧ t.isNull = false ∧ (∀ b ∈ cstr rest, b < TRIE_CHILDREN) ∧
        Inserted n t (cstr rest) (safestrcpy cmd MAX_COMMAND_LENGTH) := by
  intro rest
  induction rest with
  | nil =>
    intro n k t k1 h
    cases n with
    | null => simp [trie_insert_from] at h
    | node ch e m =>
      simp only [trie_insert_from, Option.some.injEq, Prod.mk.injEq] at h
      obtain ⟨rfl, _⟩ := h
      exact ⟨rfl, rfl, by simp [cstr_nil], inserted_end ch e m _⟩
  | cons c rest ih =>
    intro n k t k1 h
    cases n with
    | null => simp [trie_insert_from] at h
    | node ch e m =>
      simp only [trie_insert_from] at h
      by_cases hc0 : c = 0
      · subst hc0
        simp only [if_true, Option.some.injEq, Prod.mk.injEq] at h
        obtain ⟨rfl, _⟩ := h
        rw [cstr_cons_zero]
        exact ⟨rfl, rfl, by simp, inserted_end ch e m _⟩
      · simp only [hc0, if_false] at h
        by_cases hc128 : TRIE_CHILDREN ≤ c
        · simp [hc128] at h
        · simp only [hc128, if_false] at h
          split at h
          · cases h
          · rename_i child1 k2 hrec
            simp only [Option.some.injEq, Prod.mk.injEq] at h
            obtain ⟨rfl, _⟩ := h
            obtain ⟨hcn, hc1n, hbytes, hins⟩ := ih _ _ _ _ hrec
            rw [cstr_cons_ne c rest hc0]
            refine ⟨rfl, rfl, ?_, ?_⟩
            · intro b hb
              rcases List.mem_cons.mp hb with rfl | hb
              · omega
              · exact hbytes b hb
            · apply inserted_child ch e m c _ child1 _ _ _ hins
              by_cases hnull : (ch c).isNull = true
              · right
                refine ⟨hnull, ?_⟩
                simp only [hnull, if_true] at hcn ⊢
                by_cases ha : alloc_page k = true
                · simp [ha]
                · simp [ha, TrieNode.isNull] at hcn
              · left
                simp [hnull]

theorem trie_insert_from_succeeds (alloc_page : Nat → Bool)
    (halloc : ∀ k, alloc_page k = true) (cmd : List Nat) :
    ∀ (rest : List Nat) (n : TrieNode) (k : Nat), n.isNull = false →
      (∀ b ∈ cstr rest, b < TRIE_CHILDREN) →
      ∃ t k1, trie_insert_from alloc_page cmd rest n k = some (t, k1) := by
  intro rest
  induction rest with
  | nil =>
    intro n k hn _
    cases n with
    | null => simp [TrieNode.isNull] at hn
    | node ch e m => exact ⟨_, _, rfl⟩
  | cons c rest ih =>
    intro n k hn hb
    cases n with
    | null => simp [TrieNode.isNull] at hn
    | node ch e m =>
      simp only [trie_insert_from]
      by_cases hc0 : c = 0
      · rw [if_pos hc0]
        exact ⟨_, _, rfl⟩
      · rw [cstr_cons_ne c rest hc0] at hb
        have hc128 : ¬ TRIE_CHILDREN ≤ c := by
          have := hb c (List.mem_cons_self _ _)
          omega
        simp only [hc0, hc128, if_false, halloc, if_true]
        have hchild : (if (ch c).isNull = true then
            TrieNode.node (fun _ => TrieNode.null) false [] else ch c).isNull = false := by
          by_cases hnull : (ch c).isNull = true
          · rw [if_pos hnull]
            rfl
          · rw [if_neg hnull]
            exact Bool.eq_false_iff.mpr hnull
        obtain ⟨t, k1, hrec⟩ := ih _ (if (ch c).isNull = true then k + 1 else k) hchild
          (fun b hb' => hb b (List.mem_cons_of_mem _ hb'))
        rw [hrec]
        exact ⟨_, _, rfl⟩

theorem stores_init : Stores trie_init [] := by
  refine ⟨rfl, fun p => ?_⟩
  obtain ⟨f1, f2, f3⟩ := descend_fresh p
  simp only [trie_init]
  refine ⟨?_, ?_, ?_⟩
  · rw [f3]; simp
  · simp [f1]
  · simp [f1]

theorem stores_insert (t t1 : TrieNode) (L : List (List Nat)) (x : List Nat)
    (h : Stores t L) (ht1 : t1.isNull = false) (hins : Inserted t t1 x x) :
    Stores t1 (L ++ [x]) := by
  refine ⟨ht1, fun p => ?_⟩
  obtain ⟨h1, h2, h3⟩ := hins p
  obtain ⟨g1, g2, g3⟩ := h.2 p
  refine ⟨?_, ?_, ?_⟩
  · rw [h1, g1]
    simp only [List.mem_append, List.mem_singleton]
    constructor
    · rintro ((rfl | ⟨y, hy, hp⟩) | hp)
      · exact Or.inl rfl
      · exact Or.inr ⟨y, Or.inl hy, hp⟩
      · exact Or.inr ⟨x, Or.inr rfl, hp⟩
    · rintro (rfl | ⟨y, hy | rfl, hp⟩)
      · exact Or.inl (Or.inl rfl)
      · exact Or.inl (Or.inr ⟨y, hy, hp⟩)
      · exact Or.inr hp
  · rw [h2, g2]
    simp
  · intro he
    rw [h3]
    by_cases hpx : p = x
    · simp [hpx]
    · simp only [hpx, if_false]
      apply g3
      rcases h2.mp he with h | h
      · exact h
      · exact absurd h hpx

theorem safestrcpy_short (x : List Nat) (h : (cstr x).length < MAX_COMMAND_LENGTH) :
    safestrcpy x MAX_COMMAND_LENGTH = cstr x := by
  simp only [safestrcpy]
  apply List.take_of_length_le
  omega

theorem stores_trie_insert (alloc_page : Nat → Bool) (t t1 : TrieNode) (k k1 : Nat)
    (L : List (List Nat)) (x : List Nat) (h : Stores t L)
    (hlen : strlen x < MAX_COMMAND_LENGTH)
    (hins : trie_insert alloc_page t k x = some (t1, k1)) :
    Stores t1 (L ++ [cstr x]) ∧ ∀ b ∈ cstr x, b < TRIE_CHILDREN := by
  obtain ⟨_, ht1, hb, hi⟩ := trie_insert_from_spec alloc_page x x t k t1 k1 hins
  rw [safestrcpy_short x hlen] at hi
  exact ⟨stores_insert t t1 L _ h ht1 hi, hb⟩

theorem trie_find_eq_descend :
    ∀ (p : List Nat) (n : TrieNode), n.isNull = false →
      (∀ b ∈ p, b ≠ 0 ∧ b < TRIE_CHILDREN) → trie_find n p = some (n.descend p) := by
  intro p
  induction p with
  | nil => intro n _ _; cases n <;> rfl
  | cons c rest ih =>
    intro n hn hb
    cases n with
    | null => simp [TrieNode.isNull] at hn
    | node ch e m =>
      obtain ⟨hc0, hc128⟩ := hb c (List.mem_cons_self _ _)
      have hc128' : ¬ TRIE_CHILDREN ≤ c := by omega
      simp only [trie_find, hc0, hc128', if_false, TrieNode.descend]
      by_cases hnull : (ch c).isNull = true
      · have hcn : ch c = TrieNode.null := by
          cases hch : ch c with
          | null => rfl
          | node _ _ _ => rw [hch] at hnull; simp [TrieNode.isNull] at hnull
        simp [hcn, TrieNode.isNull, descend_null]
      · simp only [hnull, if_false]
        exact ih (ch c) (by simpa using hnull) (fun b hb' => hb b (List.mem_cons_of_mem _ hb'))

theorem trie_insert_all_stores (alloc_page : Nat → Bool) (halloc : ∀ k, alloc_page k = true) :
    ∀ (L : List (List Nat)) (t : TrieNode) (k : Nat) (L0 : List (List Nat)),
      Stores t L0 →
      (∀ x ∈ L, x.length < MAX_COMMAND_LENGTH ∧ ∀ b ∈ x, 1 ≤ b ∧ b ≤ 127) →
      ∃ t1 k1, trie_insert_all alloc_page L t k = some (t1, k1) ∧ Stores t1 (L0 ++ L) := by
  intro L
  induction L with
  | nil =>
    intro t k L0 h _
    exact ⟨t, k, rfl, by simpa using h⟩
  | cons x xs ih =>
    intro t k L0 h hL
    obtain ⟨hlen, hb⟩ := hL x (List.mem_cons_self _ _)
    have hcx : cstr x = x := cstr_eq_self x (fun b hb' => by have := hb b hb'; omega)
    obtain ⟨t1, k1, hins⟩ := trie_insert_from_succeeds alloc_page halloc x x t k h.1
      (by
        rw [hcx]
        intro b hb'
        have := hb b hb'
        simp only [TRIE_CHILDREN]
        omega)
    have hst := (stores_trie_insert alloc_page t t1 k k1 L0 x h
      (by simpa [strlen, hcx] using hlen) hins).1
    rw [hcx] at hst
    obtain ⟨t2, k2, hrest, hst2⟩ := ih t1 k1 (L0 ++ [x]) hst
      (fun y hy => hL y (List.mem_cons_of_mem _ hy))
    refine ⟨t2, k2, ?_, by simpa using hst2⟩
    simp only [trie_insert_all]
    rw [show trie_insert alloc_page t k x = some (t1, k1) from hins]
    exact hrest

/-- C6 as amended: the trie lookup specification.  For every list `L` of names (each
shorter than 32 bytes, all bytes in `1..127`) inserted with `trie_insert` into a freshly
initialised trie with every allocation succeeding, the insertions succeed, and for every
string `p` over the bytes `1..127`, `trie_find(p)` returns a node if and only if `p` is
empty or a prefix of some name of `L`, and that node is terminal with stored command `p`
if and only if `p` is itself in `L`. -/
theorem trie_find_insert_all (L : List (List Nat))
    (hL : ∀ x ∈ L, x.length < MAX_COMMAND_LENGTH ∧ ∀ b ∈ x, 1 ≤ b ∧ b ≤ 127) :
    ∃ t k, trie_insert_all (fun _ => true) L trie_init 0 = some (t, k) ∧
      ∀ p : List Nat, (∀ b ∈ p, 1 ≤ b ∧ b ≤ 127) →
        ∃ n, trie_find t p = some n ∧
          (n.isNull = false ↔ (p = [] ∨ ∃ x ∈ L, p <+: x)) ∧
          ((n.isEnd = true ∧ n.cmd = p) ↔ p ∈ L) := by
  obtain ⟨t, k, hbuild, hst⟩ :=
    trie_insert_all_stores (fun _ => true) (fun _ => rfl) L trie_init 0 [] stores_init hL
  simp only [List.nil_append] at hst
  refine ⟨t, k, hbuild, fun p hp => ⟨t.descend p, ?_, ?_, ?_⟩⟩
  · apply trie_find_eq_descend p t hst.1
    intro b hb
    have := hp b hb
    simp only [TRIE_CHILDREN]
    omega
  · exact (hst.2 p).1
  · obtain ⟨_, h2, h3⟩ := hst.2 p
    constructor
    · rintro ⟨he, _⟩
      exact h2.mp he
    · intro hmem
      exact ⟨h2.mpr hmem, h3 (h2.mpr hmem)⟩

/-- Witness of C6 as amended: the names `ls` and `cat`. -/
theorem trie_find_insert_all_witness :
    ∃ t k, trie_insert_all (fun _ => true) [[108, 115], [99, 97, 116]] trie_init 0
        = some (t, k) ∧
      ∀ p : List Nat, (∀ b ∈ p, 1 ≤ b ∧ b ≤ 127) →
        ∃ n, trie_find t p = some n ∧
          (n.isNull = false ↔ (p = [] ∨ ∃ x ∈ [[108, 115], [99, 97, 116]], p <+: x)) ∧
          ((n.isEnd = true ∧ n.cmd = p) ↔ p ∈ [[108, 115], [99, 97, 116]]) :=
  trie_find_insert_all [[108, 115], [99, 97, 116]] (by decide)

/-- Counterexample to C6 as stated: with no name inserted, looking up the empty string
returns a node (the root), although the empty string is a prefix of no inserted name. -/
theorem trie_find_empty_trie :
    trie_insert_all (fun _ => true) [] trie_init 0 = some (trie_init, 0) ∧
      (∃ n, trie_find trie_init [] = some n ∧ n.isNull = false) ∧
      ¬ ∃ x ∈ ([] : List (List Nat)), ([] : List Nat) <+: x := by
  refine ⟨rfl, ⟨trie_init, rfl, rfl⟩, ?_⟩
  simp

theorem trie_collect_null (acc : List Nat × Nat) : trie_collect TrieNode.null acc = acc := rfl

theorem trie_collect_children_found (ch : Nat → TrieNode)
    (ih : ∀ i (acc : List Nat × Nat), acc.2 ≤ 2 →
      (trie_collect (ch i) acc).2 = min (acc.2 + (ch i).count) 2) :
    ∀ (l : List Nat) (acc : List Nat × Nat), acc.2 ≤ 2 →
      (l.foldl (fun a i => if (ch i).isNull then a else trie_collect (ch i) a) acc).2
        = min (acc.2 + (l.map (fun i => (ch i).count)).sum) 2 := by
  intro l
  induction l with
  | nil => intro acc h; simp; omega
  | cons i l ihl =>
    intro acc h
    simp only [List.foldl_cons, List.map_cons, List.sum_cons]
    have hstep : (if (ch i).isNull then acc else trie_collect (ch i) acc)
        = trie_collect (ch i) acc := by
      cases hch : ch i <;> simp [TrieNode.isNull, trie_collect_null]
    rw [hstep, ihl _ (by rw [ih i acc h]; omega), ih i acc h]
    omega

/-- The count left in `*found` by `trie_collect`: the terminal nodes are counted up to 2. -/
theorem trie_collect_found :
    ∀ (n : TrieNode) (acc : List Nat × Nat), acc.2 ≤ 2 →
      (trie_collect n acc).2 = min (acc.2 + n.count) 2 := by
  intro n
  induction n with
  | null => intro acc h; simp [trie_collect, TrieNode.count]; omega
  | node ch e m ih =>
    intro acc h
    simp only [trie_collect, TrieNode.count]
    by_cases hgt : acc.2 > 1
    · simp only [hgt, if_true]
      omega
    · simp only [hgt, if_false]
      rw [trie_collect_children_found ch ih]
      · cases e
        · simp
        · simp only [if_true]
          omega
      · cases e
        · simpa using h
        · simp only [if_true]
          omega

theorem le_sum_range (f : Nat → Nat) :
    ∀ (N b : Nat), b < N → f b ≤ ((List.range N).map f).sum := by
  intro N
  induction N with
  | zero => intro b h; omega
  | succ N ih =>
    intro b h
    rw [List.range_succ, List.map_append, List.sum_append]
    by_cases hb : b = N
    · subst hb; simp
    · have := ih b (by omega)
      omega

theorem add_le_sum_range (f : Nat → Nat) :
    ∀ (N b1 b2 : Nat), b1 < b2 → b2 < N → f b1 + f b2 ≤ ((List.range N).map f).sum := by
  intro N
  induction N with
  | zero => intro b1 b2 _ h; omega
  | succ N ih =>
    intro b1 b2 h12 h
    rw [List.range_succ, List.map_append, List.sum_append]
    by_cases hb : b2 = N
    · subst hb
      have := le_sum_range f b2 b1 h12
      simp
      omega
    · have := ih b1 b2 h12 (by omega)
      omega

theorem count_pos_of_end :
    ∀ (s : List Nat) (n : TrieNode), (∀ b ∈ s, b < TRIE_CHILDREN) →
      (n.descend s).isEnd = true → 1 ≤ n.count := by
  intro s
  induction s with
  | nil =>
    intro n _ h
    cases n with
    | null => simp [TrieNode.descend, TrieNode.isEnd] at h
    | node ch e m =>
      simp only [TrieNode.descend, TrieNode.isEnd] at h
      simp [TrieNode.count, h]
  | cons b s ih =>
    intro n hb h
    cases n with
    | null => simp [TrieNode.descend, TrieNode.isEnd] at h
    | node ch e m =>
      simp only [TrieNode.descend] at h
      have h1 := ih (ch b) (fun x hx => hb x (List.mem_cons_of_mem _ hx)) h
      have h2 : (ch b).count ≤ ((List.range TRIE_CHILDREN).map (fun i => (ch i).count)).sum :=
        le_sum_range (fun i => (ch i).count) TRIE_CHILDREN b (hb b (List.mem_cons_self _ _))
      simp only [TrieNode.count]
      omega

theorem count_two_of_ends :
    ∀ (s1 s2 : List Nat) (n : TrieNode), s1 ≠ s2 →
      (∀ b ∈ s1, b < TRIE_CHILDREN) → (∀ b ∈ s2, b < TRIE_CHILDREN) →
      (n.descend s1).isEnd = true → (n.descend s2).isEnd = true → 2 ≤ n.count := by
  intro s1
  induction s1 with
  | nil =>
    intro s2 n hne _ hb2 h1 h2
    cases n with
    | null => simp [TrieNode.descend, TrieNode.isEnd] at h1
    | node ch e m =>
      cases s2 with
      | nil => exact absurd rfl hne
      | cons b s2 =>
        simp only [TrieNode.descend, TrieNode.isEnd] at h1 h2
        have g1 := count_pos_of_end s2 (ch b) (fun x hx => hb2 x (List.mem_cons_of_mem _ hx)) h2
        have g2 : (ch b).count ≤ ((List.range TRIE_CHILDREN).map (fun i => (ch i).count)).sum :=
          le_sum_range (fun i => (ch i).count) TRIE_CHILDREN b (hb2 b (List.mem_cons_self _ _))
        simp only [TrieNode.count, h1, if_true]
        omega
  | cons a s1 ih =>
    intro s2 n hne hb1 hb2 h1 h2
    cases n with
    | null => simp [TrieNode.descend, TrieNode.isEnd] at h1
    | node ch e m =>
      have ha := hb1 a (List.mem_cons_self _ _)
      have hs1 : ∀ x ∈ s1, x < TRIE_CHILDREN := fun x hx => hb1 x (List.mem_cons_of_mem _ hx)
      cases s2 with
      | nil =>
        simp only [TrieNode.descend, TrieNode.isEnd] at h1 h2
        have g1 := count_pos_of_end s1 (ch a) hs1 h1
        have g2 : (ch a).count ≤ ((List.range TRIE_CHILDREN).map (fun i => (ch i).count)).sum :=
          le_sum_range (fun i => (ch i).count) TRIE_CHILDREN a ha
        simp only [TrieNode.count, h2, if_true]
        omega
      | cons b s2 =>
        have hb := hb2 b (List.mem_cons_self _ _)
        have hs2 : ∀ x ∈ s2, x < TRIE_CHILDREN :=
          fun x hx => hb2 x (List.mem_cons_of_mem _ hx)
        simp only [TrieNode.descend] at h1 h2
        simp only [TrieNode.count]
        by_cases hab : a = b
        · subst hab
          have hne' : s1 ≠ s2 := fun h => hne (by rw [h])
          have g1 := ih s2 (ch a) hne' hs1 hs2 h1 h2
          have g2 : (ch a).count ≤
              ((List.range TRIE_CHILDREN).map (fun i => (ch i).count)).sum :=
            le_sum_range (fun i => (ch i).count) TRIE_CHILDREN a ha
          omega
        · have g1 := count_pos_of_end s1 (ch a) hs1 h1
          have g2 := count_pos_of_end s2 (ch b) hs2 h2
          rcases Nat.lt_or_gt_of_ne hab with hlt | hgt
          · have g3 : (ch a).count + (ch b).count ≤
                ((List.range TRIE_CHILDREN).map (fun i => (ch i).count)).sum :=
              add_le_sum_range (fun i => (ch i).count) TRIE_CHILDREN a b hlt hb
            omega
          · have g3 : (ch b).count + (ch a).count ≤
                ((List.range TRIE_CHILDREN).map (fun i => (ch i).count)).sum :=
              add_le_sum_range (fun i => (ch i).count) TRIE_CHILDREN b a hgt ha
            omega

/-- The example registries are what `init_usr_commands` builds. -/
theorem example_registries_built :
    init_usr_commands (fun _ => true) (some [⟨1, [108, 115]⟩, ⟨2, [108, 105, 115, 116]⟩])
        = some registry_ls_list ∧
      init_usr_commands (fun _ => true) (some [⟨1, [108, 115]⟩, ⟨2, [99, 97, 116]⟩])
        = some registry_ls_cat ∧
      init_usr_commands (fun _ => true) (some [⟨1, [108, 115]⟩]) = some registry_ls :=
  ⟨rfl, rfl, rfl⟩

/-- C2, the code at the failing input: with `ls` and `cat` registered, 510 spaces, `c` and
a tab typed into the empty ring leave `r = 0`, `w = 0`, `e = 513`: the completion stored
`at` without looking at the room left, and `e - r` is 513. -/
theorem consoleintr_overcommits_ring :
    (consoleintr registry_ls_cat ring_empty (List.replicate 510 32 ++ [99, 9])).map
        (fun p => (p.1.r, p.1.w, p.1.e))
      = some (0, 0, 513) := by
  decide!

/-- C7, the code at the failing input: with `ls` and `cat` registered and 510 spaces and
`c` typed into the empty ring (`e = 511`, position 0 holds a space), a tab stores `a` at
position 511 and `t` at position `512 mod 512 = 0`, over the first byte of the region. -/
theorem autocomplete_overwrites_ring_start :
    (consoleintr registry_ls_cat ring_empty (List.replicate 510 32 ++ [99])).bind
        (fun p => (consoleintr_byte registry_ls_cat p.1 9).map
          (fun q => (p.1.view 1, q.1.view 1, q.2)))
      = some ([0, 0, 511, 32], [0, 0, 513, 116],
          [Event.uartputc 97, Event.uartputc 116]) := by
  decide!

/-- C9, the code at the failing input: with `ls` registered and `z` typed, a tab returns
at `if (!node) return;` and emits nothing. -/
theorem autocomplete_no_match_is_silent :
    (consoleintr registry_ls ring_empty [122]).bind
        (fun p => (consoleintr_byte registry_ls p.1 9).map (fun q => (p.1.view 2, q.1.view 2, q.2)))
      = some ([0, 0, 1, 122, 0], [0, 0, 1, 122, 0], []) := by
  decide!

theorem kill_line_spec (buf : Nat → Nat) (w : Nat) :
    ∀ e, w ≤ e →
      ∃ e1, kill_line buf w e
          = some (e1, (List.replicate (e - e1)
              [Event.uartputc 8, Event.uartputc 32, Event.uartputc 8]).flatten) ∧
        w ≤ e1 ∧ e1 ≤ e ∧ (e1 = w ∨ buf ((e1 - 1) % INPUT_BUF) = 10) := by
  intro e
  induction e with
  | zero =>
    intro hw
    have : w = 0 := by omega
    subst this
    exact ⟨0, by simp [kill_line], le_refl _, le_refl _, Or.inl rfl⟩
  | succ e ih =>
    intro hw
    by_cases h : w = e + 1
    · subst h
      exact ⟨e + 1, by simp [kill_line], le_refl _, le_refl _, Or.inl rfl⟩
    · have hne : e + 1 ≠ w := fun x => h x.symm
      by_cases hb : buf (e % INPUT_BUF) = 10
      · exact ⟨e + 1, by simp [kill_line, hb], by omega, le_refl _, Or.inr (by simpa using hb)⟩
      · obtain ⟨e1, hk, h1, h2, h3⟩ := ih (by omega)
        refine ⟨e1, ?_, h1, by omega, h3⟩
        have hrep : e + 1 - e1 = (e - e1) + 1 := by omega
        simp only [kill_line, hne, hb, ne_eq, not_false_eq_true, and_self, if_true, hk,
          Option.map_some', hrep, List.replicate_succ, List.flatten_cons]
        rfl

/-- C11: the kill-line postcondition.  In every ring state with `w ≤ e`, processing `^U`
returns; `e` ends at some `e1` with `w ≤ e1 ≤ e` and either `e1 = w` or a newline at ring
position `(e1 - 1) mod 512`; the output is one sequence backspace, space, backspace per
position by which `e` went down; `r`, `w` and the buffer are as before. -/
theorem kill_line_postcondition (reg : Registry) (s : Input) (hwe : s.w ≤ s.e) :
    ∃ e1, consoleintr_byte reg s (C 85)
        = some ({ s with e := e1 },
            (List.replicate (s.e - e1)
              [Event.uartputc 8, Event.uartputc 32, Event.uartputc 8]).flatten) ∧
      s.w ≤ e1 ∧ e1 ≤ s.e ∧ (e1 = s.w ∨ s.buf ((e1 - 1) % INPUT_BUF) = 10) := by
  obtain ⟨e1, hk, h1, h2, h3⟩ := kill_line_spec s.buf s.w s.e hwe
  exact ⟨e1, by simp [consoleintr_byte, C, hk], h1, h2, h3⟩

/-- Witness of C11: with `a`, newline, `a`, `a` in the in-progress region `[0, 4)`, `^U`
erases the last two bytes and stops after the newline. -/
theorem kill_line_postcondition_witness :
    ∃ e1, consoleintr_byte ⟨[], trie_init⟩
          ⟨fun i => if i = 1 then 10 else 97, 0, 0, 4⟩ (C 85)
        = some (⟨fun i => if i = 1 then 10 else 97, 0, 0, e1⟩,
            (List.replicate (4 - e1)
              [Event.uartputc 8, Event.uartputc 32, Event.uartputc 8]).flatten) ∧
      0 ≤ e1 ∧ e1 ≤ 4 ∧
      (e1 = 0 ∨ (fun i => if i = 1 then 10 else 97) ((e1 - 1) % INPUT_BUF) = 10) :=
  kill_line_postcondition ⟨[], trie_init⟩ ⟨fun i => if i = 1 then 10 else 97, 0, 0, 4⟩
    (by decide)

/-- C12: silent drop.  A byte of the default case that arrives when `e - r = 512`, and the
zero byte in any state, leave `r`, `w`, `e` and the buffer unchanged and produce no
output event (no echo, no `wakeup`). -/
theorem consoleintr_byte_dropped (reg : Registry) (s : Input) (c : Nat)
    (h : (s.e - s.r = INPUT_BUF ∧ c ≠ C 85 ∧ c ≠ C 72 ∧ c ≠ 127 ∧ c ≠ 9 ∧ c ≠ C 80) ∨ c = 0) :
    consoleintr_byte reg s c = some (s, []) := by
  rcases h with ⟨hfull, h1, h2, h3, h4, h5⟩ | rfl
  · have hnr : ¬ s.e < s.r := by
      simp only [INPUT_BUF] at hfull
      omega
    simp [consoleintr_byte, h1, h2, h3, h4, h5, hnr, hfull]
  · simp [consoleintr_byte, C]

/-- Witness of C12: `a` on a full ring, and the zero byte on the empty ring. -/
theorem consoleintr_byte_dropped_witness :
    consoleintr_byte ⟨[], trie_init⟩ ⟨fun _ => 97, 3, 515, 515⟩ 97
        = some (⟨fun _ => 97, 3, 515, 515⟩, []) ∧
      consoleintr_byte ⟨[], trie_init⟩ ring_empty 0 = some (ring_empty, []) :=
  ⟨consoleintr_byte_dropped _ _ 97 (Or.inl (by decide)),
   consoleintr_byte_dropped _ _ 0 (Or.inr rfl)⟩

/-- C13 as amended: a control byte that matches no case is an ordinary byte.  For every
ring state with `r ≤ e` and room (`e - r < 512`) and every control byte `1..31` other than
`^U`, `^H`, tab, `^P`, carriage return, newline and `^D`, the byte is stored at position
`e mod 512`, `e` is incremented and the byte is echoed; when that fills the ring the line
is committed (`w = e`) and the reader woken; `r` is unchanged. -/
theorem control_byte_stored (reg : Registry) (s : Input) (c : Nat)
    (hpos : 0 < c) (hctl : c < 32)
    (hnot : c ≠ C 85 ∧ c ≠ C 72 ∧ c ≠ 9 ∧ c ≠ C 80 ∧ c ≠ 13 ∧ c ≠ 10 ∧ c ≠ C 68)
    (hre : s.r ≤ s.e) (hroom : s.e - s.r < INPUT_BUF) :
    consoleintr_byte reg s c =
      some (if s.e + 1 = s.r + INPUT_BUF then
          ({ s with buf := bufset s.buf (s.e % INPUT_BUF) c, e := s.e + 1, w := s.e + 1 },
            [Event.uartputc c, Event.wakeup])
        else
          ({ s with buf := bufset s.buf (s.e % INPUT_BUF) c, e := s.e + 1 },
            [Event.uartputc c])) := by
  obtain ⟨h1, h2, h3, h4, h5, h6, h7⟩ := hnot
  have h127 : c ≠ 127 := by omega
  have hc0 : c ≠ 0 := by omega
  have hnr : ¬ s.e < s.r := by omega
  have hcm : c % 256 = c := Nat.mod_eq_of_lt (by omega)
  have hput : consputc c = [Event.uartputc c] := by
    have : c ≠ BACKSPACE := by simp only [BACKSPACE]; omega
    simp [consputc, this]
  by_cases hfull : s.e + 1 = s.r + INPUT_BUF
  · simp [consoleintr_byte, h1, h2, h3, h4, h5, h6, h7, h127, hc0, hnr, hroom, hcm, hput, hfull]
  · simp [consoleintr_byte, h1, h2, h3, h4, h5, h6, h7, h127, hc0, hnr, hroom, hcm, hput, hfull]

/-- Witness of C13 as amended: `^A` after two pending bytes. -/
theorem control_byte_stored_witness :
    consoleintr_byte ⟨[], trie_init⟩ ⟨fun _ => 97, 0, 0, 2⟩ 1 =
      some (⟨bufset (fun _ => 97) 2 1, 0, 0, 3⟩, [Event.uartputc 1]) :=
  control_byte_stored ⟨[], trie_init⟩ ⟨fun _ => 97, 0, 0, 2⟩ 1 (by decide) (by decide)
    (by decide) (by decide) (by decide)

/-- Counterexample to C13: `^A` (value 1) typed into the empty ring is stored at position 0,
`e` becomes 1, and the byte is echoed. -/
theorem control_byte_not_ignored :
    (consoleintr_byte ⟨[], trie_init⟩ ring_empty 1).map (fun p => (p.1.view 1, p.2))
      = some ([0, 0, 1, 1], [Event.uartputc 1]) ∧
    ring_empty.view 1 = [0, 0, 0, 0] := by
  decide

/-- C14 as amended: an unrecognised placeholder is echoed.  When the formatting loop of
`cprintf` stands at a `'%'` followed by a byte `c` that is not `d`, `x`, `p`, `s`, not `'%'`
and not the terminator, it emits exactly the two bytes `'%'` and `c`, takes no argument,
and goes on with the rest of the format and the same arguments. -/
theorem cprintf_unknown_placeholder (c : Nat) (rest : List Nat) (args : List Arg)
    (hc : c < 256) (h0 : c ≠ 0)
    (hletter : c ≠ 100 ∧ c ≠ 120 ∧ c ≠ 112 ∧ c ≠ 115) (hpc : c ≠ 37) :
    cprintf (37 :: c :: rest) args =
      (cprintf rest args).map
        (fun p => ([Event.uartputc 37, Event.uartputc c] ++ p.1, p.2)) := by
  obtain ⟨hd, hx, hp, hs⟩ := hletter
  have hcm : c % 256 = c := Nat.mod_eq_of_lt hc
  have hput : consputc c = [Event.uartputc c] := by
    have : c ≠ BACKSPACE := by simp only [BACKSPACE]; omega
    simp [consputc, this]
  have h37 : consputc 37 = [Event.uartputc 37] := by decide
  cases hrest : cprintf_loop rest args with
  | none => simp [cprintf, cprintf_loop, hcm, h0, hd, hx, hp, hs, hpc, hput, h37, hrest]
  | some p => simp [cprintf, cprintf_loop, hcm, h0, hd, hx, hp, hs, hpc, hput, h37, hrest]

/-- Witness of C14 as amended: the format `"%q!"` with one unused argument. -/
theorem cprintf_unknown_placeholder_witness :
    cprintf [37, 113, 33] [Arg.word 5] =
      (cprintf [33] [Arg.word 5]).map
        (fun p => ([Event.uartputc 37, Event.uartputc 113] ++ p.1, p.2)) :=
  cprintf_unknown_placeholder 113 [33] [Arg.word 5] (by decide) (by decide) (by decide)
    (by decide)

/-- Counterexample to C14: `'%'` is a character other than `d`, `x`, `p`, `s`, and the
format `"%%"` makes `cprintf` emit the single byte `'%'`, not two. -/
theorem cprintf_percent_percent :
    cprintf [37, 37] [] = some ([Event.uartputc 37], []) := by
  decide

theorem trie_collect_of_null (n : TrieNode) (acc : List Nat × Nat) :
    (if n.isNull then acc else trie_collect n acc) = trie_collect n acc := by
  cases n <;> simp [TrieNode.isNull, trie_collect_null]

theorem sum_eq_zero_of_count (f : Nat → Nat) (l : List Nat) (h : (l.map f).sum = 0) :
    ∀ i ∈ l, f i = 0 := by
  intro i hi
  have := List.sum_eq_zero_iff.mp h (f i) (List.mem_map_of_mem f hi)
  exact this

/-- A subtree without terminal nodes leaves `result` and `*found` as they are. -/
theorem trie_collect_count_zero :
    ∀ (n : TrieNode) (acc : List Nat × Nat), n.count = 0 → trie_collect n acc = acc := by
  intro n
  induction n with
  | null => intro acc _; rfl
  | node ch e m ih =>
    intro acc h
    simp only [TrieNode.count] at h
    have he : e = false := by
      cases e
      · rfl
      · simp at h
    subst he
    have hsum : ((List.range TRIE_CHILDREN).map (fun i => (ch i).count)).sum = 0 := by
      simpa using h
    have hall := sum_eq_zero_of_count (fun i => (ch i).count) _ hsum
    simp only [trie_collect]
    split
    · rfl
    · simp only [Bool.false_eq_true, if_false]
      have hfold : ∀ (l : List Nat), (∀ i ∈ l, (ch i).count = 0) →
          l.foldl (fun a i => if (ch i).isNull then a else trie_collect (ch i) a) acc = acc := by
        intro l
        induction l with
        | nil => intro _; rfl
        | cons i l ihl =>
          intro hl
          rw [List.foldl_cons, trie_collect_of_null, ih i acc (hl i (List.mem_cons_self _ _))]
          exact ihl (fun j hj => hl j (List.mem_cons_of_mem _ hj))
      exact hfold _ hall

theorem trie_collect_children_unique (ch : Nat → TrieNode)
    (ih : ∀ i (acc : List Nat × Nat), acc.2 = 0 → (ch i).count = 1 →
      ∃ s : List Nat, (∀ b ∈ s, b < TRIE_CHILDREN) ∧ ((ch i).descend s).isEnd = true ∧
        (trie_collect (ch i) acc).1 = safestrcpy ((ch i).descend s).cmd MAX_COMMAND_LENGTH) :
    ∀ (l : List Nat) (acc : List Nat × Nat), acc.2 = 0 → (∀ i ∈ l, i < TRIE_CHILDREN) →
      (l.map (fun i => (ch i).count)).sum = 1 →
      ∃ (i : Nat) (s : List Nat), i < TRIE_CHILDREN ∧ (∀ b ∈ s, b < TRIE_CHILDREN) ∧
        ((ch i).descend s).isEnd = true ∧
        (l.foldl (fun a i => if (ch i).isNull then a else trie_collect (ch i) a) acc).1
          = safestrcpy ((ch i).descend s).cmd MAX_COMMAND_LENGTH := by
  intro l
  induction l with
  | nil => intro acc _ _ h; simp at h
  | cons i l ihl =>
    intro acc hacc hl hsum
    simp only [List.map_cons, List.sum_cons] at hsum
    rw [List.foldl_cons, trie_collect_of_null]
    by_cases hi : (ch i).count = 0
    · rw [trie_collect_count_zero (ch i) acc hi]
      exact ihl acc hacc (fun j hj => hl j (List.mem_cons_of_mem _ hj)) (by omega)
    · have hi1 : (ch i).count = 1 := by omega
      have hrest : (l.map (fun i => (ch i).count)).sum = 0 := by omega
      obtain ⟨s, hs, hend, hres⟩ := ih i acc hacc hi1
      refine ⟨i, s, hl i (List.mem_cons_self _ _), hs, hend, ?_⟩
      have hall := sum_eq_zero_of_count (fun i => (ch i).count) l hrest
      have hfold : ∀ (l2 : List Nat) (a : List Nat × Nat), (∀ j ∈ l2, (ch j).count = 0) →
          l2.foldl (fun a i => if (ch i).isNull then a else trie_collect (ch i) a) a = a := by
        intro l2
        induction l2 with
        | nil => intro a _; rfl
        | cons j l2 ih2 =>
          intro a h2
          rw [List.foldl_cons, trie_collect_of_null,
            trie_collect_count_zero (ch j) a (h2 j (List.mem_cons_self _ _))]
          exact ih2 a (fun x hx => h2 x (List.mem_cons_of_mem _ hx))
      rw [hfold l _ hall]
      exact hres

/-- With exactly one terminal node below `n`, `trie_collect` leaves its command in
`result`. -/
theorem trie_collect_unique :
    ∀ (n : TrieNode) (acc : List Nat × Nat), acc.2 = 0 → n.count = 1 →
      ∃ s : List Nat, (∀ b ∈ s, b < TRIE_CHILDREN) ∧ (n.descend s).isEnd = true ∧
        (trie_collect n acc).1 = safestrcpy (n.descend s).cmd MAX_COMMAND_LENGTH := by
  intro n
  induction n with
  | null => intro acc _ h; simp [TrieNode.count] at h
  | node ch e m ih =>
    intro acc hacc hcount
    simp only [TrieNode.count] at hcount
    have hgt : ¬ acc.2 > 1 := by omega
    simp only [trie_collect, hgt, if_false]
    cases e with
    | true =>
      have hsum : ((List.range TRIE_CHILDREN).map (fun i => (ch i).count)).sum = 0 := by
        simpa using hcount
      have hall := sum_eq_zero_of_count (fun i => (ch i).count) _ hsum
      have hfold : ∀ (l2 : List Nat) (a : List Nat × Nat), (∀ j ∈ l2, (ch j).count = 0) →
          l2.foldl (fun a i => if (ch i).isNull then a else trie_collect (ch i) a) a = a := by
        intro l2
        induction l2 with
        | nil => intro a _; rfl
        | cons j l2 ih2 =>
          intro a h2
          rw [List.foldl_cons, trie_collect_of_null,
            trie_collect_count_zero (ch j) a (h2 j (List.mem_cons_self _ _))]
          exact ih2 a (fun x hx => h2 x (List.mem_cons_of_mem _ hx))
      refine ⟨[], by simp, by simp [TrieNode.descend, TrieNode.isEnd], ?_⟩
      simp only [if_true]
      rw [hfold _ _ hall]
      simp [TrieNode.descend, TrieNode.cmd]
    | false =>
      have hsum : ((List.range TRIE_CHILDREN).map (fun i => (ch i).count)).sum = 1 := by
        simpa using hcount
      obtain ⟨i, s, hi, hs, hend, hres⟩ :=
        trie_collect_children_unique ch ih (List.range TRIE_CHILDREN) acc hacc
          (fun j hj => List.mem_range.mp hj) hsum
      refine ⟨i :: s, ?_, ?_, ?_⟩
      · intro b hb
        rcases List.mem_cons.mp hb with rfl | hb
        · exact hi
        · exact hs b hb
      · simpa [TrieNode.descend] using hend
      · simp only [Bool.false_eq_true, if_false, TrieNode.descend]
        exact hres

/-- C17: the count of `trie_collect`.  For every node `n` with `k = n.count` terminal
nodes below it (itself included) and every initial content of the result buffer,
`trie_collect` started with `found = 0` returns with `found = min k 2`; and when `k = 1`
there is exactly one path to a terminal node and the result buffer holds the copy
`safestrcpy` makes of that node's command, which is the command itself when it is a
string shorter than 32 bytes. -/
theorem trie_collect_count (n : TrieNode) (result : List Nat) :
    (trie_collect n (result, 0)).2 = min n.count 2 ∧
      (n.count = 1 →
        ∃ s : List Nat, (∀ b ∈ s, b < TRIE_CHILDREN) ∧ (n.descend s).isEnd = true ∧
          (∀ s2 : List Nat, (∀ b ∈ s2, b < TRIE_CHILDREN) → (n.descend s2).isEnd = true →
            s2 = s) ∧
          (trie_collect n (result, 0)).1 = safestrcpy (n.descend s).cmd MAX_COMMAND_LENGTH ∧
          ((∀ b ∈ (n.descend s).cmd, b ≠ 0) → (n.descend s).cmd.length < MAX_COMMAND_LENGTH →
            (trie_collect n (result, 0)).1 = (n.descend s).cmd)) := by
  constructor
  · have := trie_collect_found n (result, 0) (by simp)
    simpa using this
  · intro h1
    obtain ⟨s, hs, hend, hres⟩ := trie_collect_unique n (result, 0) rfl h1
    refine ⟨s, hs, hend, ?_, hres, ?_⟩
    · intro s2 hs2 hend2
      by_contra hne
      have := count_two_of_ends s2 s n hne hs2 hs hend2 hend
      omega
    · intro hz hlen
      rw [hres, safestrcpy_short _ (by rw [cstr_eq_self _ hz]; exact hlen), cstr_eq_self _ hz]

/-- Every allocation made by a `trie_insert` that returns was given a page. -/
theorem trie_insert_from_allocs (alloc_page : Nat → Bool) (cmd : List Nat) :
    ∀ (rest : List Nat) (n : TrieNode) (k : Nat) (t : TrieNode) (k1 : Nat),
      trie_insert_from alloc_page cmd rest n k = some (t, k1) →
      k ≤ k1 ∧ ∀ j, k ≤ j → j < k1 → alloc_page j = true := by
  intro rest
  induction rest with
  | nil =>
    intro n k t k1 h
    cases n with
    | null => simp [trie_insert_from] at h
    | node ch e m =>
      simp only [trie_insert_from, Option.some.injEq, Prod.mk.injEq] at h
      obtain ⟨_, rfl⟩ := h
      exact ⟨le_refl _, fun j h1 h2 => by omega⟩
  | cons c rest ih =>
    intro n k t k1 h
    cases n with
    | null => simp [trie_insert_from] at h
    | node ch e m =>
      simp only [trie_insert_from] at h
      by_cases hc0 : c = 0
      · simp only [hc0, if_true, Option.some.injEq, Prod.mk.injEq] at h
        obtain ⟨_, rfl⟩ := h
        exact ⟨le_refl _, fun j h1 h2 => by omega⟩
      · simp only [hc0, if_false] at h
        by_cases hc128 : TRIE_CHILDREN ≤ c
        · simp [hc128] at h
        · simp only [hc128, if_false] at h
          split at h
          · cases h
          · rename_i child1 k2 hrec
            simp only [Option.some.injEq, Prod.mk.injEq] at h
            obtain ⟨_, rfl⟩ := h
            obtain ⟨hle, hall⟩ := ih _ _ _ _ hrec
            obtain ⟨hcn, _, _, _⟩ := trie_insert_from_spec alloc_page cmd rest _ _ _ _ hrec
            by_cases hnull : (ch c).isNull = true
            · simp only [hnull, if_true] at hle hall hcn
              refine ⟨by omega, fun j h1 h2 => ?_⟩
              by_cases hj : j = k
              · subst hj
                by_contra ha
                simp [ha, TrieNode.isNull] at hcn
              · exact hall j (by omega) h2
            · simp only [hnull, if_false] at hle hall
              exact ⟨hle, hall⟩

/-- C18, the code at the failing input: inserting `ls` into the fresh trie when the
allocator has no page at its first call, or gives one page and then none, does not return
a trie: after `node = node->children[idx]` has loaded the null pointer, the next
`node->children[idx]`, or the final `node->is_end = 1`, goes through it. -/
theorem trie_insert_alloc_failure :
    (trie_insert (fun _ => false) trie_init 0 [108, 115]).isNone = true ∧
      (trie_insert (fun k => decide (k = 0)) trie_init 0 [108, 115]).isNone = true := by
  decide

/-- C20, the code at the failing input: after 32 bytes `a` typed into the empty ring the
current word starts at 0 and ends at `e = 32`, so `len = 32` and `prefix[len] = '\0'` is a
store at index 32 of the 32-byte array; the model of `autocomplete` stops there. -/
theorem autocomplete_prefix_overflow :
    (consoleintr registry_ls ring_empty (List.replicate 32 97)).map
        (fun p => (p.1.w, p.1.e, p.1.e - word_start p.1.buf p.1.w p.1.e,
          (autocomplete registry_ls p.1.e p.1.buf p.1.w).isNone))
      = some (0, 32, 32, true) := by
  decide!

theorem consoleread_wait_committed :
    ∀ (wakes : List Wake) (s : Input) (killed : Bool), s.r ≤ s.w →
      (∀ wk ∈ wakes, ∀ t : Input, t.r ≤ t.w → (wk.ring t).r ≤ (wk.ring t).w) →
      (∀ s1, consoleread_wait s killed wakes = Waited.cancelled s1 → s1.r ≤ s1.w) ∧
      (∀ s1 killed1 wakes1,
        consoleread_wait s killed wakes = Waited.ready s1 killed1 wakes1 →
        s1.r < s1.w ∧
          ∀ wk ∈ wakes1, ∀ t : Input, t.r ≤ t.w → (wk.ring t).r ≤ (wk.ring t).w) := by
  intro wakes
  induction wakes with
  | nil =>
    intro s killed hs _
    constructor
    · intro s1 h
      simp only [consoleread_wait] at h
      split_ifs at h
      · cases h; exact hs
    · intro s1 killed1 wakes1 h
      simp only [consoleread_wait] at h
      split_ifs at h with h1
      · cases h
        exact ⟨by omega, by simp⟩
  | cons wk rest ih =>
    intro s killed hs hw
    have hrest : ∀ wk ∈ rest, ∀ t : Input, t.r ≤ t.w → (wk.ring t).r ≤ (wk.ring t).w :=
      fun x hx => hw x (List.mem_cons_of_mem _ hx)
    have hwk := hw wk (List.mem_cons_self _ _) s hs
    constructor
    · intro s1 h
      simp only [consoleread_wait] at h
      split_ifs at h
      · cases h; exact hs
      · exact (ih (wk.ring s) wk.killed hwk hrest).1 s1 h
    · intro s1 killed1 wakes1 h
      simp only [consoleread_wait] at h
      split_ifs at h with h1
      · exact (ih (wk.ring s) wk.killed hwk hrest).2 s1 killed1 wakes1 h
      · cases h
        exact ⟨by omega, hw⟩

theorem consoleread_takes_lt :
    ∀ (n : Nat) (s : Input) (killed : Bool) (wakes : List Wake), s.r ≤ s.w →
      (∀ wk ∈ wakes, ∀ t : Input, t.r ≤ t.w → (wk.ring t).r ≤ (wk.ring t).w) →
      ∀ t ∈ consoleread_takes n s killed wakes, t.r < t.w := by
  intro n
  induction n with
  | zero => intro s killed wakes _ _ t ht; simp [consoleread_takes] at ht
  | succ n ih =>
    intro s killed wakes hs hw t ht
    have hwait := consoleread_wait_committed wakes s killed hs hw
    rw [consoleread_takes] at ht
    split at ht
    · simp at ht
    · simp at ht
    · rename_i s1 killed1 wakes1 heq
      obtain ⟨hlt, hw1⟩ := hwait.2 _ _ _ heq
      split_ifs at ht
      · rw [List.mem_singleton.mp ht]
        exact hlt
      · rcases List.mem_cons.mp ht with rfl | ht
        · exact hlt
        · exact ih _ _ _ (by simp only; omega) hw1 t ht

theorem consoleread_loop_takes (target : Nat) :
    ∀ (n : Nat) (s : Input) (killed : Bool) (wakes : List Wake) (dst0 : List Nat)
      (v : Int) (s1 : Input) (dst : List Nat), s.r ≤ s.w →
      (∀ wk ∈ wakes, ∀ t : Input, t.r ≤ t.w → (wk.ring t).r ≤ (wk.ring t).w) →
      consoleread_loop target n s killed wakes dst0 = ReadResult.ret v s1 dst →
      s1.r ≤ s1.w ∧
        dst = dst0 ++ ((consoleread_takes n s killed wakes).map
          (fun t => t.buf (t.r % INPUT_BUF))).filter (fun b => b != C 68) := by
  intro n
  induction n with
  | zero =>
    intro s killed wakes dst0 v s1 dst hs _ h
    simp only [consoleread_loop] at h
    injection h with _ h2 h3
    subst h2 h3
    exact ⟨hs, by simp [consoleread_takes]⟩
  | succ n ih =>
    intro s killed wakes dst0 v s1 dst hs hw h
    have hwait := consoleread_wait_committed wakes s killed hs hw
    rw [consoleread_loop] at h
    rw [consoleread_takes]
    split at h
    · rename_i s2 heq
      injection h with _ h2 h3
      subst h2 h3
      exact ⟨hwait.1 _ heq, by simp⟩
    · cases h
    · rename_i s2 killed2 wakes2 heq
      obtain ⟨hlt, hw2⟩ := hwait.2 _ _ _ heq
      simp only at h ⊢
      by_cases hc4 : s2.buf (s2.r % INPUT_BUF) = C 68
      · simp only [hc4, if_true, true_or] at h ⊢
        split_ifs at h
        · injection h with _ h2 h3
          subst h2 h3
          exact ⟨by simp only; omega, by simp [hc4]⟩
        · injection h with _ h2 h3
          subst h2 h3
          exact ⟨by simp only; omega, by simp [hc4]⟩
      · by_cases hc10 : s2.buf (s2.r % INPUT_BUF) = 10
        · simp only [hc4, hc10, if_false, if_true, or_true] at h ⊢
          injection h with _ h2 h3
          subst h2 h3
          refine ⟨by simp only; omega, ?_⟩
          have h104 : ¬ ((10 : Nat) = C 68) := by decide
          simp [List.filter_cons, hc10, h104]
        · simp only [hc4, hc10, if_false, or_self] at h ⊢
          obtain ⟨g1, g2⟩ := ih _ _ _ _ _ _ _ (by simp only; omega) hw2 h
          refine ⟨g1, ?_⟩
          rw [g2]
          have : (s2.buf (s2.r % INPUT_BUF) != C 68) = true := by simpa using hc4
          simp [List.filter_cons, this]

/-- C19: the wait condition is re-validated.  From a ring with `r ≤ w`, whatever `sleep`
returns to (any number of times, also with `r = w` still true), as long as the rings it
returns to keep `r ≤ w`: every time `consoleread` takes a byte the ring has `r < w`, so
the byte at position `r` is a committed one; the bytes delivered are exactly the bytes
taken, without the `^D`; and `r ≤ w` holds on return. -/
theorem consoleread_takes_committed (s : Input) (killed : Bool) (wakes : List Wake) (n : Nat)
    (hs : s.r ≤ s.w)
    (hsleep : ∀ wk ∈ wakes, ∀ t : Input, t.r ≤ t.w → (wk.ring t).r ≤ (wk.ring t).w) :
    (∀ t ∈ consoleread_takes n s killed wakes, t.r < t.w) ∧
      ∀ (v : Int) (s1 : Input) (dst : List Nat),
        consoleread s killed wakes n = ReadResult.ret v s1 dst →
        s1.r ≤ s1.w ∧
          dst = ((consoleread_takes n s killed wakes).map
            (fun t => t.buf (t.r % INPUT_BUF))).filter (fun b => b != C 68) := by
  refine ⟨consoleread_takes_lt n s killed wakes hs hsleep, fun v s1 dst h => ?_⟩
  have := consoleread_loop_takes n n s killed wakes [] v s1 dst hs hsleep h
  simpa using this

/-- Witness of C19: a read of 5 from the empty ring sleeps twice, the first wake finding
`r = w` still, and then delivers `h`, newline from a ring with `r < w`. -/
theorem consoleread_takes_committed_witness :
    (consoleread ring_empty false wakes_spurious_then_line 5).summary
        = some (2, 2, [104, 10]) ∧
      ((∀ t ∈ consoleread_takes 5 ring_empty false wakes_spurious_then_line, t.r < t.w) ∧
        ∀ (v : Int) (s1 : Input) (dst : List Nat),
          consoleread ring_empty false wakes_spurious_then_line 5 = ReadResult.ret v s1 dst →
          s1.r ≤ s1.w ∧
            dst = ((consoleread_takes 5 ring_empty false wakes_spurious_then_line).map
              (fun t => t.buf (t.r % INPUT_BUF))).filter (fun b => b != C 68)) :=
  ⟨by decide,
   consoleread_takes_committed ring_empty false wakes_spurious_then_line 5 (by decide) (by
    intro wk hwk t ht
    simp only [wakes_spurious_then_line, List.mem_cons, List.mem_singleton,
      List.not_mem_nil, or_false] at hwk
    rcases hwk with rfl | rfl
    · exact ht
    · simp only
      omega)⟩

/-- C21, the code at the failing input: with `ls` registered, 510 spaces, `l` and a tab
typed into the empty ring leave `r = 0`, `w = 0`, `e = 512`: the completion stored `s` in
the last free slot without the commit that the default case makes when the ring becomes
full.  The ring is full and nothing is committed; a newline typed next is dropped without
output, so the line can no longer be committed, and a reader finds `r = w`. -/
theorem autocomplete_fills_ring_uncommitted :
    (consoleintr registry_ls ring_empty (List.replicate 510 32 ++ [108, 9])).bind
        (fun p => (consoleintr_byte registry_ls p.1 10).map
          (fun q => (p.1.view 0, q.1.view 0, q.2)))
      = some ([0, 0, 512], [0, 0, 512], []) := by
  decide!

/-- C22, the code at the failing input: the byte `0xC8` (200) typed into the empty ring is
stored in the in-progress region; with `ls` registered, the tab that follows makes
`trie_find` select `children[200]`, outside the 128 slots, and so does `trie_insert` for a
name that starts with that byte: the model of both stops there. -/
theorem child_index_out_of_range :
    (consoleintr registry_ls ring_empty [200]).map
        (fun p => (p.1.view 1, (trie_find registry_ls.trie_root [p.1.buf 0]).isNone,
          (consoleintr_byte registry_ls p.1 9).isNone))
      = some ([0, 0, 1, 200], true, true) ∧
    (trie_insert (fun _ => true) trie_init 0 [200, 115]).isNone = true := by
  decide

end Console
